import Mathlib

/-!
# Calculator: expression builder, sanitizer, evaluator and history ledger

A shallow embedding of `src/main.js`.

* A JavaScript string is a `List Char`.  Every character the program inspects
  (digits, operators, parentheses, the decimal point, the three glyphs `×`, `−`, `÷`
  and the white space class) lies in the Basic Multilingual Plane, where one
  character is one UTF-16 code unit, so `slice(-1)` is the last character and
  `slice(0, -1)` drops it.
* The three module variables `expression`, `previousExpression`, `history` and the text of
  the two display elements are the fields of `State`; every function of the source is a
  function `State → State`.
* A regular expression is embedded as the function that decides it; the doc comment of each
  such function quotes the regular expression it decides.
* The arithmetic evaluation `Function('"use strict"; return (' + sanitized + ')')()` is done
  by the JavaScript engine, not by the program: it is a parameter `run` of
  `evaluateExpression`.
-/

namespace Calculator

/-- A JavaScript string. -/
abbrev Str := List Char

/-! ## State -/

/-- An element `{ expr, result }` of the array `history`. -/
structure HistoryItem where
  expr : Str
  result : Str
deriving DecidableEq, Repr

/-- The module state: the variables `expression`, `previousExpression` and `history`, the
text content of `currentEl` and `previousEl`, and the number of `setTimeout(updateDisplay, 1000)`
callbacks that were scheduled. -/
structure State where
  expression : Str
  previousExpression : Str
  history : List HistoryItem
  current : Str
  previous : Str
  timers : Nat
deriving DecidableEq, Repr

/-! ## Character classes -/

/-- The class `\d`. -/
def isDigit (c : Char) : Bool :=
  c = '0' || c = '1' || c = '2' || c = '3' || c = '4' || c = '5' || c = '6' || c = '7' ||
    c = '8' || c = '9'

/-- The class `[+\-*/%]`. -/
def isOperator (c : Char) : Bool :=
  c = '+' || c = '-' || c = '*' || c = '/' || c = '%'

/-- The class `[+*\\/%]`: plus, star, backslash, slash, percent. -/
def isLeadingOperator (c : Char) : Bool :=
  c = '+' || c = '*' || c = '\\' || c = '/' || c = '%'

/-- The test `/^[+\-*/%]$/.test(x)`: `x` is one character of the class. -/
def testOperator (x : Str) : Bool :=
  match x with
  | [c] => isOperator c
  | _ => false

/-- The test `/^[+*\\/%]$/.test(x)`. -/
def testLeadingOperator (x : Str) : Bool :=
  match x with
  | [c] => isLeadingOperator c
  | _ => false

/-- The slice `x.slice(-1)`: the last character as a string, or the empty string. -/
def sliceLast (x : Str) : Str :=
  match x.getLast? with
  | some c => [c]
  | none => []

/-! ## Display and expression builder -/

/-- The function `updateDisplay`: `expression || '0'` and `previousExpression || ''`. -/
def updateDisplay (s : State) : State :=
  { s with
    current := if s.expression = [] then ['0'] else s.expression
    previous := s.previousExpression }

/-- The function `pushToExpression(str)`. -/
def pushToExpression (str : Str) (s : State) : State :=
  let last := sliceLast s.expression
  if testLeadingOperator str = true ∧ s.expression = [] then s
  else if testOperator last = true ∧ testOperator str = true then
    if str = ['-'] ∧ last = ['('] then
      updateDisplay { s with expression := s.expression ++ str }
    else
      updateDisplay { s with expression := s.expression.dropLast ++ str }
  else
    updateDisplay { s with expression := s.expression ++ str }

/-- The function `clearEntry`. -/
def clearEntry (s : State) : State :=
  updateDisplay { s with expression := [] }

/-- The function `clearAll`; `renderHistory` only projects `history` to the page. -/
def clearAll (s : State) : State :=
  updateDisplay { s with expression := [], previousExpression := [], history := [] }

/-- The function `backspace`. -/
def backspace (s : State) : State :=
  updateDisplay { s with expression := s.expression.dropLast }

/-- The array update of `addHistory(expr, result)`: `unshift`, then one `pop` when the length
exceeds 20. -/
def recordHistory (h : List HistoryItem) (expr result : Str) : List HistoryItem :=
  let h1 := { expr := expr, result := result } :: h
  if h1.length > 20 then h1.dropLast else h1

/-- The function `addHistory(expr, result)`. -/
def addHistory (expr result : Str) (s : State) : State :=
  { s with history := recordHistory s.history expr result }

/-- The click listener that `renderHistory` installs on the `i`-th rendered item. -/
def selectHistory (i : Nat) (s : State) : State :=
  match s.history.get? i with
  | some item => updateDisplay { s with expression := item.expr }
  | none => s

/-- The state after the module is loaded (`updateDisplay(); renderHistory();`). -/
def initial : State :=
  { expression := [], previousExpression := [], history := [],
    current := ['0'], previous := [], timers := 0 }

/-! ## Sanitizer -/

/-- The regular expression `(\d+(\.\d+)?)%` matched at the start of `s`: the captured number
and what follows the `%`.  Both `\d+` are greedy, and giving back a digit leaves a digit where
`.` or `%` is required, so the only candidates are the maximal digit runs. -/
def matchPercent (s : Str) : Option (Str × Str) :=
  let d1 := s.takeWhile isDigit
  if d1 = [] then none
  else
    match s.dropWhile isDigit with
    | '%' :: rest => some (d1, rest)
    | '.' :: r2 =>
      let d2 := r2.takeWhile isDigit
      if d2 = [] then none
      else
        match r2.dropWhile isDigit with
        | '%' :: rest => some (d1 ++ '.' :: d2, rest)
        | _ => none
    | _ => none

/-- The scan of `input.replace(/(\d+(\.\d+)?)%/g, '($1/100)')`.  The first argument counts the
characters of the current match that are still to be skipped: a match is looked for at every
position that is not inside an earlier match, from left to right. -/
def expandPercentFrom : Nat → Str → Str
  | _, [] => []
  | k + 1, _ :: cs => expandPercentFrom k cs
  | 0, c :: cs =>
    match matchPercent (c :: cs) with
    | some (num, _) => '(' :: (num ++ ['/', '1', '0', '0', ')'] ++ expandPercentFrom num.length cs)
    | none => c :: expandPercentFrom 0 cs

/-- Step 1 of `sanitizeForEval`: `input.replace(/(\d+(\.\d+)?)%/g, '($1/100)')`. -/
def expandPercent (input : Str) : Str :=
  expandPercentFrom 0 input

/-- One character of `.replace(/×/g, '*').replace(/−/g, '-').replace(/÷/g, '/')`. -/
def replaceGlyph (c : Char) : Char :=
  if c = '×' then '*' else if c = '−' then '-' else if c = '÷' then '/' else c

/-- Step 2 of `sanitizeForEval`: the three glyph replacements. -/
def replaceGlyphs (input : Str) : Str :=
  input.map replaceGlyph

/-- The class `\s` of ECMAScript: white space and line terminators. -/
def isSpace (c : Char) : Bool :=
  c = '\t' || c = '\n' || c = Char.ofNat 0x0B || c = Char.ofNat 0x0C || c = '\r' || c = ' ' ||
    c = Char.ofNat 0xA0 || c = Char.ofNat 0x1680 ||
    (0x2000 ≤ c.toNat && c.toNat ≤ 0x200A) ||
    c = Char.ofNat 0x2028 || c = Char.ofNat 0x2029 || c = Char.ofNat 0x202F ||
    c = Char.ofNat 0x205F || c = Char.ofNat 0x3000 || c = Char.ofNat 0xFEFF

/-- The class `[0-9+\-*/().\s%]`. -/
def isAllowed (c : Char) : Bool :=
  isDigit c || c = '+' || c = '-' || c = '*' || c = '/' || c = '(' || c = ')' || c = '.' ||
    isSpace c || c = '%'

/-- The test `/^[0-9+\-*/().\s%]+$/.test(x)`: at least one character, all of the class. -/
def testAllowed (x : Str) : Bool :=
  !x.isEmpty && x.all isAllowed

/-- The regular expression `\(\s*\)` matched at the start of `x`. -/
def emptyParensAt (x : Str) : Bool :=
  match x with
  | '(' :: rest =>
    match rest.dropWhile isSpace with
    | ')' :: _ => true
    | _ => false
  | _ => false

/-- The test `/\(\s*\)/.test(x)`: a match at some position. -/
def testEmptyParens : Str → Bool
  | [] => false
  | c :: cs => emptyParensAt (c :: cs) || testEmptyParens cs

/-- The two errors `sanitizeForEval` throws: 'Caracteres no permitidos' and
'Paréntesis vacíos'. -/
inductive SanitizeError where
  | notAllowed
  | emptyParens
deriving DecidableEq, Repr

deriving instance DecidableEq for Except

/-- The function `sanitizeForEval(input)`. -/
def sanitizeForEval (input : Str) : Except SanitizeError Str :=
  let input1 := expandPercent input
  let input2 := replaceGlyphs input1
  if testAllowed input2 = false then .error .notAllowed
  else if testEmptyParens input2 = true then .error .emptyParens
  else .ok input2

/-! ## Evaluator -/

/-- What `evaluateExpression` observes of the value returned by the JavaScript engine:
whether `typeof result === 'number'`, then `isFinite(result)`, and `String(result)`. -/
inductive JsValue where
  | number (finite : Bool) (str : Str)
  | other (str : Str)
deriving DecidableEq, Repr

/-- The string `String(result)`. -/
def JsValue.toStr : JsValue → Str
  | .number _ str => str
  | .other str => str

/-- The test `typeof result === 'number' && !isFinite(result)`. -/
def JsValue.isNonFiniteNumber : JsValue → Bool
  | .number finite _ => !finite
  | .other _ => false

/-- The `catch` block of `evaluateExpression`. -/
def evaluateFailed (s : State) : State :=
  { s with
    previousExpression := []
    expression := []
    current := ['E', 'r', 'r', 'o', 'r']
    timers := s.timers + 1 }

/-- The function `evaluateExpression`.  `run sanitized` is the outcome of
`Function('"use strict"; return (' + sanitized + ')')()`: `none` when the engine throws,
otherwise the value returned. -/
def evaluateExpression (run : Str → Option JsValue) (s : State) : State :=
  if s.expression = [] then s
  else
    match sanitizeForEval s.expression with
    | .error _ => evaluateFailed s
    | .ok sanitized =>
      match run sanitized with
      | none => evaluateFailed s
      | some result =>
        let displayResult :=
          if result.isNonFiniteNumber = true then ['E', 'r', 'r', 'o', 'r'] else result.toStr
        let s1 := { s with previousExpression := s.expression ++ [' ', '='] }
        let s2 := addHistory s.expression displayResult s1
        let s3 :=
          { s2 with
            expression := if displayResult = ['E', 'r', 'r', 'o', 'r'] then [] else displayResult }
        updateDisplay s3

/-! ## Trailing numeric token -/

/-- The regular expression `\d+(\.\d+)?` matched against the whole of `x`. -/
def isNumber (x : Str) : Bool :=
  let d1 := x.takeWhile isDigit
  !d1.isEmpty &&
    (match x.dropWhile isDigit with
    | [] => true
    | '.' :: r2 => !r2.isEmpty && r2.all isDigit
    | _ => false)

/-- The regular expression `-?\d+(\.\d+)?` matched against the whole of `x`. -/
def isSignedNumber (x : Str) : Bool :=
  match x with
  | '-' :: r => isNumber r
  | _ => isNumber x

/-- The regular expression `\d+\.\d*|\d+` matched against the whole of `x`. -/
def isDecimalEntry (x : Str) : Bool :=
  let d1 := x.takeWhile isDigit
  !d1.isEmpty &&
    (match x.dropWhile isDigit with
    | [] => true
    | '.' :: r2 => r2.all isDigit
    | _ => false)

/-- The call `x.match(/(R)$/)` for a regular expression `R` decided on whole strings by `p`:
the leftmost position from which `R` matches up to the end of `x`, as the part before the
match (its length is `match.index`) and the match. -/
def matchAtEnd (p : Str → Bool) : Str → Option (Str × Str)
  | [] => if p [] = true then some ([], []) else none
  | c :: cs =>
    if p (c :: cs) = true then some ([], c :: cs)
    else
      match matchAtEnd p cs with
      | some (before, m) => some (c :: before, m)
      | none => none

/-- The string `(parseFloat(numStr) * -1).toString()` for a match `numStr` of `-?\d+(\.\d+)?`
that is an integer numeral with at most 15 significant digits: such a numeral is a double
without rounding and prints in positional notation with its leading zeros removed; zero
prints as `0` whatever its sign.  Every other numeral is left out (`none`): its result depends
on the rounding of double-precision arithmetic. -/
def toggleNumber (numStr : Str) : Option Str :=
  let negative := numStr.head? = some '-'
  let body := if negative then numStr.tail else numStr
  if body.isEmpty || !body.all isDigit then none
  else
    let significant := body.dropWhile (fun c => c = '0')
    if significant.isEmpty then some ['0']
    else if significant.length ≤ 15 then
      some (if negative then significant else '-' :: significant)
    else none

/-- The function `applyPlusMinus`; `none` where `toggleNumber` is. -/
def applyPlusMinus (s : State) : Option State :=
  match matchAtEnd isSignedNumber s.expression with
  | none => some s
  | some (before, numStr) =>
    match toggleNumber numStr with
    | none => none
    | some toggled => some (updateDisplay { s with expression := before ++ toggled })

/-- The function `applyPercent`. -/
def applyPercent (s : State) : State :=
  match matchAtEnd isNumber s.expression with
  | none => s
  | some _ => updateDisplay { s with expression := s.expression ++ ['%'] }

/-- The test `/[^\d)]/.test(last)` for `last = expression.slice(-1)`, a string of at most one
character. -/
def testNotDigitOrClose (last : Str) : Bool :=
  last.any (fun c => !isDigit c && !(c = ')'))

/-- The button click listener for a button with attribute `data-value` equal to `v` and no
`data-action` (`if (v) { ... }`). -/
def clickValue (v : Str) (s : State) : State :=
  if v = [] then s
  else if v = ['.'] then
    let hasPoint :=
      match matchAtEnd isDecimalEntry s.expression with
      | some (_, m) => m.contains '.'
      | none => false
    if hasPoint = true then s
    else
      let last := sliceLast s.expression
      if last = [] ∨ testNotDigitOrClose last = true then
        updateDisplay { s with expression := s.expression ++ ['0', '.'] }
      else pushToExpression v s
  else pushToExpression v s

/-! ## Operations and runs -/

/-- The operations of the calculator. -/
inductive Action where
  | append (token : Str)
  | decimalPoint
  | backspace
  | clearEntry
  | clearAll
  | plusMinus
  | percent
  | evaluate
  | select (i : Nat)
deriving DecidableEq, Repr

/-- One operation; `none` only where `applyPlusMinus` is. -/
def step (run : Str → Option JsValue) (a : Action) (s : State) : Option State :=
  match a with
  | .append token => some (pushToExpression token s)
  | .decimalPoint => some (clickValue ['.'] s)
  | .backspace => some (backspace s)
  | .clearEntry => some (clearEntry s)
  | .clearAll => some (clearAll s)
  | .plusMinus => applyPlusMinus s
  | .percent => some (applyPercent s)
  | .evaluate => some (evaluateExpression run s)
  | .select i => some (selectHistory i s)

/-- A sequence of operations, from left to right. -/
def runActions (run : Str → Option JsValue) : List Action → State → Option State
  | [], s => some s
  | a :: rest, s =>
    match step run a s with
    | some s1 => runActions run rest s1
    | none => none

/-- The single-character tokens of the keypad: a digit, one of `+ - * / %`, `(` or `)`. -/
def isToken (token : Str) : Bool :=
  match token with
  | [c] => isDigit c || isOperator c || c = '(' || c = ')'
  | _ => false

/-- The core operations: every operation, an append being of a keypad token. -/
def isCoreAction (a : Action) : Bool :=
  match a with
  | .append token => isToken token
  | _ => true

/-- The outcome of the JavaScript engine on four sample programs: `2+2` is the number 4,
`(50/100)` the number 0.5, `5/0` is `Infinity`, and `2+` throws a `SyntaxError`.  It is used
at these four programs only. -/
def sampleEngine (program : Str) : Option JsValue :=
  if program = ['2', '+', '2'] then some (.number true ['4'])
  else if program = ['(', '5', '0', '/', '1', '0', '0', ')'] then
    some (.number true ['0', '.', '5'])
  else if program = ['5', '/', '0'] then
    some (.number false ['I', 'n', 'f', 'i', 'n', 'i', 't', 'y'])
  else none

/-- The ledger after `addHistory` was called with the entries of `entries`, in that order,
on the empty ledger. -/
def recordAll (entries : List HistoryItem) : List HistoryItem :=
  entries.foldl (fun h e => recordHistory h e.expr e.result) []

/-- No two consecutive characters of `e` are both of `+ - * / %`. -/
def NoAdjacentOperators (e : Str) : Prop :=
  List.Chain' (fun a b => ¬ (isOperator a = true ∧ isOperator b = true)) e

/-- The decision of `NoAdjacentOperators`, pair by pair. -/
def decideNoAdjacentOperators : (e : Str) → Decidable (NoAdjacentOperators e)
  | [] => isTrue List.chain'_nil
  | [a] => isTrue (List.chain'_singleton a)
  | a :: b :: rest =>
    match decideNoAdjacentOperators (b :: rest) with
    | isTrue h =>
      if hab : isOperator a = true ∧ isOperator b = true then
        isFalse (fun hc => (List.chain'_cons.mp hc).1 hab)
      else isTrue (List.chain'_cons.mpr ⟨hab, h⟩)
    | isFalse h => isFalse (fun hc => h (List.chain'_cons.mp hc).2)

instance (e : Str) : Decidable (NoAdjacentOperators e) :=
  decideNoAdjacentOperators e

/-- The outcome of the JavaScript engine on the program `(/5/)+(/5/)`: each operand is a
regular expression literal, and their sum is the string `/5//5/`.  It is used at this
program only. -/
def regexEngine (program : Str) : Option JsValue :=
  if program = ['(', '/', '5', '/', ')', '+', '(', '/', '5', '/', ')'] then
    some (.other ['/', '5', '/', '/', '5', '/'])
  else none

/-- The evaluation of the Expression of `s` hands back no two consecutive operators: the
sanitizer rejects the Expression, or the engine throws, or it returns a non-finite number, or
it returns a value whose string form has no two consecutive operators. -/
def evaluatesSeparated (run : Str → Option JsValue) (s : State) : Bool :=
  match sanitizeForEval s.expression with
  | .error _ => true
  | .ok sanitized =>
    match run sanitized with
    | none => true
    | some result => result.isNonFiniteNumber || decide (NoAdjacentOperators result.toStr)

/-- Every evaluation of the run `acts` from the state `s` hands back no two consecutive
operators. -/
def evaluationsSeparated (run : Str → Option JsValue) : List Action → State → Bool
  | [], _ => true
  | a :: rest, s =>
    (if a = Action.evaluate then evaluatesSeparated run s else true) &&
      (match step run a s with
      | some s1 => evaluationsSeparated run rest s1
      | none => true)

/-- The numeric tokens of an Expression, the maximal runs of digits and `.` characters: the
tokens of `rest` after the run `run` that is being read. -/
def numericTokensFrom (run : Str) : Str → List Str
  | [] => if run = [] then [] else [run]
  | c :: rest =>
    if isDigit c = true ∨ c = '.' then numericTokensFrom (run ++ [c]) rest
    else if run = [] then numericTokensFrom [] rest
    else run :: numericTokensFrom [] rest

/-- The numeric tokens of an Expression. -/
def numericTokens (e : Str) : List Str :=
  numericTokensFrom [] e

/-- One or more digits, optionally followed by `.` and one or more digits. -/
def IsNumberLiteral (n : Str) : Prop :=
  ∃ d1 : Str, d1 ≠ [] ∧ (∀ c ∈ d1, isDigit c = true) ∧
    (n = d1 ∨ ∃ d2 : Str, d2 ≠ [] ∧ (∀ c ∈ d2, isDigit c = true) ∧ n = d1 ++ '.' :: d2)

/-- The string `x` contains an empty parenthesis pair: `(`, white space only, `)`. -/
def HasEmptyParens (x : Str) : Prop :=
  ∃ before ws after : Str, x = before ++ '(' :: (ws ++ ')' :: after) ∧
    ∀ c ∈ ws, isSpace c = true

/-- Neither the Expression nor the expression of a ledger entry
has two consecutive
operators: the invariant of the runs without the sign toggle. -/
def OperatorsSeparated (s : State) : Prop :=
  NoAdjacentOperators s.expression ∧ ∀ item ∈ s.history, NoAdjacentOperators item.expr

/-- A non-zero integer literal without leading zeros, of at most 15 digits. -/
def IsShortInteger (n : Str) : Prop :=
  n ≠ [] ∧ (∀ c ∈ n, isDigit c = true) ∧ n.head? ≠ some '0' ∧ n.length ≤ 15

/-- The string `before` is empty or ends in a character other than a digit, `.` and `-`. -/
def EndsOutsideNumber (before : Str) : Prop :=
  ∀ c ∈ before.getLast?, isDigit c = false ∧ c ≠ '.' ∧ c ≠ '-'

instance (n : Str) : Decidable (IsShortInteger n) :=
  inferInstanceAs (Decidable (n ≠ [] ∧ (∀ c ∈ n, isDigit c = true) ∧ n.head? ≠ some '0' ∧
    n.length ≤ 15))

/-- The Expression ends with one or more digits, a `.`, and zero or more digits. -/
def EndsWithPointedNumber (e : Str) : Prop :=
  ∃ before d1 d2 : Str, e = before ++ (d1 ++ '.' :: d2) ∧ d1 ≠ [] ∧
    (∀ c ∈ d1, isDigit c = true) ∧ ∀ c ∈ d2, isDigit c = true

/-- The function `pushToExpression(str)` with the branch `str === '-' && last === '('`
removed: under the guard of the replacement rule the last character is always replaced. -/
def pushToExpressionWithoutBranch (str : Str) (s : State) : State :=
  let last := sliceLast s.expression
  if testLeadingOperator str = true ∧ s.expression = [] then s
  else if testOperator last = true ∧ testOperator str = true then
    updateDisplay { s with expression := s.expression.dropLast ++ str }
  else
    updateDisplay { s with expression := s.expression ++ str }

/-- The operations of the builder without the sign toggle, the evaluation and the ledger:
append of a keypad token, decimal point, `applyPercent`, backspace, `clearEntry` and
`clearAll`. -/
def isBuilderAction (a : Action) : Bool :=
  match a with
  | .append token => isToken token
  | .decimalPoint => true
  | .percent => true
  | .backspace => true
  | .clearEntry => true
  | .clearAll => true
  | _ => false

/-- The operations append of a keypad token and backspace. -/
def isAppendOrBackspace (a : Action) : Bool :=
  match a with
  | .append token => isToken token
  | .backspace => true
  | _ => false

/-- No digit of `x` is directly followed by `%`. -/
def NoDigitPercent (x : Str) : Prop :=
  List.Chain' (fun a b => ¬ (isDigit a = true ∧ b = '%')) x

/-! ## Theorems -/

/-! ### Evaluation -/

theorem recordHistory_eq_take (h : List HistoryItem) (expr result : Str) (hlen : h.length ≤ 20) :
    recordHistory h expr result = ({ expr := expr, result := result } :: h).take 20 := by
  unfold recordHistory
  by_cases hl : h.length = 20
  · have h1 : ({ expr := expr, result := result } :: h : List HistoryItem).length > 20 := by
      simp [hl]
    simp only [h1, if_true]
    rw [List.dropLast_eq_take]
    simp [hl]
  · have h1 : ¬ ({ expr := expr, result := result } :: h : List HistoryItem).length > 20 := by
      simp only [List.length_cons]; omega
    simp only [h1, if_false]
    rw [List.take_of_length_le]
    simp only [List.length_cons]; omega

theorem recordHistory_length_le (h : List HistoryItem) (expr result : Str)
    (hlen : h.length ≤ 20) : (recordHistory h expr result).length ≤ 20 := by
  rw [recordHistory_eq_take h expr result hlen]
  simp [List.length_take]

/-- C1: for a non-empty Expression `e` whose sanitized form the engine evaluates to a finite
number with string form `r` (a number's string form is not the word `Error`), in a state
whose ledger holds at most 20 entries (as it does in every state of the program),
`evaluateExpression` leaves the Expression `r`, the PreviousExpression `e` followed by ` =`,
and the ledger with the entry `{e, r}` put in front of the prior entries, cut to 20. -/
theorem evaluateExpression_finite (run : Str → Option JsValue) (s : State) (sanitized r : Str)
    (hne : s.expression ≠ [])
    (hsan : sanitizeForEval s.expression = .ok sanitized)
    (hrun : run sanitized = some (.number true r))
    (hr : r ≠ ['E', 'r', 'r', 'o', 'r'])
    (hlen : s.history.length ≤ 20) :
    (evaluateExpression run s).expression = r ∧
      (evaluateExpression run s).previousExpression = s.expression ++ [' ', '='] ∧
      (evaluateExpression run s).history =
        ({ expr := s.expression, result := r } :: s.history).take 20 := by
  have hh := recordHistory_eq_take s.history s.expression r hlen
  simp only [evaluateExpression, hne, if_false, hsan, hrun, JsValue.isNonFiniteNumber,
    JsValue.toStr, Bool.not_true, updateDisplay, addHistory]
  refine ⟨?_, ?_, ?_⟩
  · simp [hr]
  · simp
  · simpa using hh

/-- C1, at the Expression `2+2` in the initial state: the Expression becomes `4`, the
PreviousExpression `2+2 =`, and the ledger holds the one entry `{2+2, 4}`. -/
theorem evaluateExpression_finite_witness :
    (evaluateExpression sampleEngine { initial with expression := ['2', '+', '2'] }).expression
        = ['4'] ∧
      (evaluateExpression sampleEngine
        { initial with expression := ['2', '+', '2'] }).previousExpression
        = ['2', '+', '2', ' ', '='] ∧
      (evaluateExpression sampleEngine { initial with expression := ['2', '+', '2'] }).history
        = [{ expr := ['2', '+', '2'], result := ['4'] }] :=
  evaluateExpression_finite sampleEngine { initial with expression := ['2', '+', '2'] }
    ['2', '+', '2'] ['4'] (by decide) (by decide) (by decide) (by decide) (by decide)

/-! ### Expression builder -/

theorem sliceLast_of_getLast? {x : Str} {c : Char} (h : x.getLast? = some c) :
    sliceLast x = [c] := by
  simp [sliceLast, h]

theorem expression_updateDisplay (s : State) : (updateDisplay s).expression = s.expression :=
  rfl

theorem getLast?_ne_nil {x : Str} {c : Char} (h : x.getLast? = some c) : x ≠ [] := by
  intro hx
  simp [hx] at h

/-- The Expression after `pushToExpression(str)` on a non-empty Expression whose last
character is `c`: the last character is replaced when `c` and `str` both are operators,
and `str` is appended otherwise. -/
theorem pushToExpression_expression (s : State) (str : Str) (c : Char)
    (hlast : s.expression.getLast? = some c) :
    (pushToExpression str s).expression =
      if isOperator c = true ∧ testOperator str = true then s.expression.dropLast ++ str
      else s.expression ++ str := by
  have hne : s.expression ≠ [] := getLast?_ne_nil hlast
  have hsl : sliceLast s.expression = [c] := sliceLast_of_getLast? hlast
  unfold pushToExpression
  simp only [hne, and_false, if_false, hsl]
  by_cases hop : isOperator c = true ∧ testOperator str = true
  · have hc : c ≠ '(' := by
      rintro rfl
      exact absurd hop.1 (by decide)
    have h2 : ¬ (str = ['-'] ∧ [c] = ['(']) := by
      rintro ⟨_, h⟩
      exact hc (by simpa using h)
    have h3 : testOperator [c] = true ∧ testOperator str = true := hop
    rw [if_pos h3, if_neg h2, if_pos hop]
    rfl
  · have h3 : ¬ (testOperator [c] = true ∧ testOperator str = true) := hop
    rw [if_neg h3, if_neg hop]
    rfl

/-- C2: on an Expression whose last character is one of `+ - * /`, appending a token that is
one of `+ - * / %` replaces the last character: the length is kept, every character but the
last is kept, and the last character is the token. -/
theorem pushToExpression_replaces_operator (s : State) (c t : Char)
    (hlast : s.expression.getLast? = some c)
    (hc : c = '+' ∨ c = '-' ∨ c = '*' ∨ c = '/')
    (ht : t = '+' ∨ t = '-' ∨ t = '*' ∨ t = '/' ∨ t = '%') :
    (pushToExpression [t] s).expression.length = s.expression.length ∧
      (pushToExpression [t] s).expression.dropLast = s.expression.dropLast ∧
      (pushToExpression [t] s).expression.getLast? = some t := by
  have hne : s.expression ≠ [] := getLast?_ne_nil hlast
  have hcop : isOperator c = true := by
    rcases hc with rfl | rfl | rfl | rfl <;> decide
  have htop : testOperator [t] = true := by
    rcases ht with rfl | rfl | rfl | rfl | rfl <;> decide
  rw [pushToExpression_expression s [t] c hlast, if_pos ⟨hcop, htop⟩]
  refine ⟨?_, ?_, ?_⟩
  · have : 0 < s.expression.length := List.length_pos.mpr hne
    simp only [List.length_append, List.length_dropLast, List.length_singleton]
    omega
  · simp [List.dropLast_concat]
  · simp

/-- C2, at the Expression `2+` and the token `*`: the Expression becomes `2*`. -/
theorem pushToExpression_replaces_operator_witness :
    (pushToExpression ['*'] { initial with expression := ['2', '+'] }).expression.length = 2 ∧
      (pushToExpression ['*'] { initial with expression := ['2', '+'] }).expression.dropLast
        = ['2'] ∧
      (pushToExpression ['*'] { initial with expression := ['2', '+'] }).expression.getLast?
        = some '*' :=
  pushToExpression_replaces_operator { initial with expression := ['2', '+'] } '+' '*'
    (by decide) (by decide) (by decide)

/-- C3 as stated fails: appending `+` to `50%` gives `50+`, not `50%+`; the `%` is replaced. -/
theorem pushToExpression_percent_counterexample :
    (pushToExpression ['+'] { initial with expression := ['5', '0', '%'] }).expression
        = ['5', '0', '+'] ∧
      (pushToExpression ['+'] { initial with expression := ['5', '0', '%'] }).expression
        ≠ ['5', '0', '%'] ++ ['+'] := by
  decide

/-- C3, amended: on a non-empty Expression with last character `c`, the replacement rule
applies exactly when `c` is one of `+ - * / %` and the token is one character of `+ - * / %`;
in every other case the token is appended unchanged.  In particular, on an Expression whose
last character is `%`, appending an operator `t` replaces the `%` by `t`. -/
theorem pushToExpression_rule (s : State) (str : Str) (c : Char)
    (hlast : s.expression.getLast? = some c) :
    (((c = '+' ∨ c = '-' ∨ c = '*' ∨ c = '/' ∨ c = '%') ∧
        (str = ['+'] ∨ str = ['-'] ∨ str = ['*'] ∨ str = ['/'] ∨ str = ['%'])) →
        (pushToExpression str s).expression = s.expression.dropLast ++ str) ∧
      (¬ ((c = '+' ∨ c = '-' ∨ c = '*' ∨ c = '/' ∨ c = '%') ∧
        (str = ['+'] ∨ str = ['-'] ∨ str = ['*'] ∨ str = ['/'] ∨ str = ['%'])) →
        (pushToExpression str s).expression = s.expression ++ str) ∧
      (c = '%' → ∀ t : Char, t = '+' ∨ t = '-' ∨ t = '*' ∨ t = '/' ∨ t = '%' →
        (pushToExpression [t] s).expression = s.expression.dropLast ++ [t]) := by
  have hc : isOperator c = true ↔ (c = '+' ∨ c = '-' ∨ c = '*' ∨ c = '/' ∨ c = '%') := by
    simp [isOperator, or_assoc]
  have hstr : testOperator str = true ↔
      (str = ['+'] ∨ str = ['-'] ∨ str = ['*'] ∨ str = ['/'] ∨ str = ['%']) := by
    match str with
    | [] => simp [testOperator]
    | [t] => simp [testOperator, isOperator, or_assoc]
    | _ :: _ :: _ => simp [testOperator]
  refine ⟨?_, ?_, ?_⟩
  · intro h
    rw [pushToExpression_expression s str c hlast, if_pos ⟨hc.mpr h.1, hstr.mpr h.2⟩]
  · intro h
    have h2 : ¬ (isOperator c = true ∧ testOperator str = true) := by
      rw [hc, hstr]; exact h
    rw [pushToExpression_expression s str c hlast, if_neg h2]
  · intro hpc t ht
    have htop : testOperator [t] = true := by
      rcases ht with rfl | rfl | rfl | rfl | rfl <;> decide
    rw [pushToExpression_expression s [t] c hlast, if_pos ⟨hc.mpr (by simp [hpc]), htop⟩]

/-- C3, amended, at the Expression `50%`: the token `+` gives `50+`, the token `7` gives
`50%7`. -/
theorem pushToExpression_rule_witness :
    (pushToExpression ['+'] { initial with expression := ['5', '0', '%'] }).expression
        = ['5', '0', '+'] ∧
      (pushToExpression ['7'] { initial with expression := ['5', '0', '%'] }).expression
        = ['5', '0', '%', '7'] :=
  ⟨(pushToExpression_rule { initial with expression := ['5', '0', '%'] } ['+'] '%'
      (by decide)).1 (by decide),
    (pushToExpression_rule { initial with expression := ['5', '0', '%'] } ['7'] '%'
      (by decide)).2.1 (by decide)⟩

/-- C4: on the empty Expression, appending `+`, `*`, `/` or `%` changes nothing, and
appending `-` gives the Expression `-`. -/
theorem pushToExpression_empty (s : State) (hempty : s.expression = []) :
    pushToExpression ['+'] s = s ∧ pushToExpression ['*'] s = s ∧
      pushToExpression ['/'] s = s ∧ pushToExpression ['%'] s = s ∧
      (pushToExpression ['-'] s).expression = ['-'] := by
  refine ⟨?_, ?_, ?_, ?_, ?_⟩
  · simp [pushToExpression, hempty, testLeadingOperator, isLeadingOperator]
  · simp [pushToExpression, hempty, testLeadingOperator, isLeadingOperator]
  · simp [pushToExpression, hempty, testLeadingOperator, isLeadingOperator]
  · simp [pushToExpression, hempty, testLeadingOperator, isLeadingOperator]
  · simp [pushToExpression, hempty, testLeadingOperator, isLeadingOperator, sliceLast,
      testOperator, updateDisplay]

/-- C4, in the initial state. -/
theorem pushToExpression_empty_witness :
    pushToExpression ['+'] initial = initial ∧ pushToExpression ['*'] initial = initial ∧
      pushToExpression ['/'] initial = initial ∧ pushToExpression ['%'] initial = initial ∧
      (pushToExpression ['-'] initial).expression = ['-'] :=
  pushToExpression_empty initial (by decide)

/-! ### Runs and invariants -/

/-- A property that the permitted operations keep holds after every run of permitted
operations. -/
theorem runActions_invariant (run : Str → Option JsValue) (P : State → Prop)
    (Q : Action → Prop)
    (hstep : ∀ a s s1, Q a → P s → step run a s = some s1 → P s1) :
    ∀ (acts : List Action) (s s1 : State), (∀ a ∈ acts, Q a) → P s →
      runActions run acts s = some s1 → P s1 := by
  intro acts
  induction acts with
  | nil =>
    intro s s1 _ hP h
    simp only [runActions, Option.some.injEq] at h
    exact h ▸ hP
  | cons a rest ih =>
    intro s s1 hQ hP h
    simp only [runActions] at h
    cases hs : step run a s with
    | none => simp [hs] at h
    | some s2 =>
      simp only [hs] at h
      exact ih s2 s1 (fun b hb => hQ b (List.mem_cons_of_mem a hb))
        (hstep a s s2 (hQ a (List.mem_cons_self a rest)) hP hs) h

/-! ### History ledger -/

theorem history_pushToExpression (str : Str) (s : State) :
    (pushToExpression str s).history = s.history := by
  simp only [pushToExpression]
  split_ifs <;> rfl

theorem history_clickValue (v : Str) (s : State) : (clickValue v s).history = s.history := by
  simp only [clickValue]
  split_ifs <;> first | rfl | exact history_pushToExpression _ _

theorem history_applyPlusMinus (s s1 : State) (h : applyPlusMinus s = some s1) :
    s1.history = s.history := by
  unfold applyPlusMinus at h
  split at h
  · simp only [Option.some.injEq] at h
    rw [← h]
  · split at h
    · simp at h
    · simp only [Option.some.injEq] at h
      rw [← h]
      rfl

theorem history_applyPercent (s : State) : (applyPercent s).history = s.history := by
  unfold applyPercent
  split <;> rfl

theorem history_selectHistory (i : Nat) (s : State) :
    (selectHistory i s).history = s.history := by
  unfold selectHistory
  split <;> rfl

/-- The ledger after `evaluateExpression`: unchanged, or one entry for the Expression
recorded. -/
theorem history_evaluateExpression (run : Str → Option JsValue) (s : State) :
    (evaluateExpression run s).history = s.history ∨
      ∃ result, (evaluateExpression run s).history
        = recordHistory s.history s.expression result := by
  unfold evaluateExpression
  split_ifs with h
  · exact Or.inl rfl
  · split
    · exact Or.inl rfl
    · split
      · exact Or.inl rfl
      · exact Or.inr ⟨_, rfl⟩

theorem history_length_step (run : Str → Option JsValue) (a : Action) (s s1 : State)
    (hlen : s.history.length ≤ 20) (h : step run a s = some s1) : s1.history.length ≤ 20 := by
  cases a with
  | append token =>
    simp only [step, Option.some.injEq] at h
    rw [← h, history_pushToExpression]; exact hlen
  | decimalPoint =>
    simp only [step, Option.some.injEq] at h
    rw [← h, history_clickValue]; exact hlen
  | backspace =>
    simp only [step, Option.some.injEq] at h
    rw [← h]; exact hlen
  | clearEntry =>
    simp only [step, Option.some.injEq] at h
    rw [← h]; exact hlen
  | clearAll =>
    simp only [step, Option.some.injEq] at h
    rw [← h]; simp [clearAll, updateDisplay]
  | plusMinus =>
    simp only [step] at h
    rw [history_applyPlusMinus s s1 h]; exact hlen
  | percent =>
    simp only [step, Option.some.injEq] at h
    rw [← h, history_applyPercent]; exact hlen
  | evaluate =>
    simp only [step, Option.some.injEq] at h
    rw [← h]
    rcases history_evaluateExpression run s with h1 | ⟨result, h1⟩
    · rw [h1]; exact hlen
    · rw [h1]; exact recordHistory_length_le _ _ _ hlen
  | select i =>
    simp only [step, Option.some.injEq] at h
    rw [← h, history_selectHistory]; exact hlen

theorem recordAll_concat (entries : List HistoryItem) (e : HistoryItem) :
    recordAll (entries ++ [e]) = recordHistory (recordAll entries) e.expr e.result := by
  simp [recordAll, List.foldl_append]

theorem recordAll_eq_take (entries : List HistoryItem) :
    recordAll entries = entries.reverse.take 20 := by
  induction entries using List.reverseRecOn with
  | nil => rfl
  | append_singleton entries e ih =>
    have hlen : (recordAll entries).length ≤ 20 := by
      rw [ih]; simp [List.length_take]
    rw [recordAll_concat, recordHistory_eq_take _ _ _ hlen, ih]
    simp [List.take_take]

/-- C5: from the empty ledger, after `addHistory` on `e1, ..., en` in that order the ledger is
the last `min n 20` entries, newest first; it has at most 20 entries, as has the ledger of
every state reached from the initial state by operations; and after 21 records it is
`e21, ..., e2`: the oldest entry `e1` is gone and the other 20 are in newest-first order. -/
theorem recordAll_newest_first :
    (∀ entries : List HistoryItem,
      recordAll entries = (entries.drop (entries.length - min entries.length 20)).reverse ∧
        (recordAll entries).length = min entries.length 20) ∧
      (∀ (run : Str → Option JsValue) (acts : List Action) (s : State),
        runActions run acts initial = some s → s.history.length ≤ 20) ∧
      (∀ (e1 : HistoryItem) (rest : List HistoryItem), rest.length = 20 →
        recordAll (e1 :: rest) = rest.reverse) := by
  refine ⟨?_, ?_, ?_⟩
  · intro entries
    rw [recordAll_eq_take]
    constructor
    · rw [List.take_reverse]
      congr 2
      omega
    · simp [List.length_take, Nat.min_comm]
  · intro run acts s h
    exact runActions_invariant run (fun s => s.history.length ≤ 20) (fun _ => True)
      (fun a s s1 _ hP hs => history_length_step run a s s1 hP hs) acts initial s
      (fun _ _ => trivial) (by decide) h
  · intro e1 rest hrest
    rw [recordAll_eq_take]
    simp only [List.reverse_cons]
    rw [List.take_append_of_le_length (by simp [hrest])]
    rw [List.take_of_length_le (by simp [hrest])]

/-! ### Consecutive operators -/

theorem NoAdjacentOperators.dropLast {e : Str} (h : NoAdjacentOperators e) :
    NoAdjacentOperators e.dropLast :=
  List.Chain'.prefix h (List.dropLast_prefix e)

theorem NoAdjacentOperators.append {e x : Str} (h : NoAdjacentOperators e)
    (hx : NoAdjacentOperators x)
    (hjoin : ∀ c ∈ e.getLast?, ∀ t ∈ x.head?, ¬ (isOperator c = true ∧ isOperator t = true)) :
    NoAdjacentOperators (e ++ x) :=
  List.Chain'.append h hx hjoin

theorem NoAdjacentOperators.single (t : Char) : NoAdjacentOperators [t] :=
  List.chain'_singleton t

/-- In an Expression without consecutive operators that ends in an operator, the character
before the last is not an operator. -/
theorem NoAdjacentOperators.before_last {e : Str} {c : Char} (h : NoAdjacentOperators e)
    (hlast : e.getLast? = some c) (hc : isOperator c = true) :
    ∀ b ∈ e.dropLast.getLast?, isOperator b = false := by
  intro b hb
  obtain ⟨ys, hys⟩ := List.getLast?_eq_some_iff.mp hlast
  subst hys
  rw [List.dropLast_concat] at hb
  obtain ⟨zs, hzs⟩ := List.getLast?_eq_some_iff.mp hb
  subst hzs
  have h2 : NoAdjacentOperators ([b] ++ [c]) := by
    have h3 : NoAdjacentOperators (zs ++ ([b] ++ [c])) := by
      simpa [List.append_assoc] using h
    exact List.Chain'.suffix h3 (List.suffix_append zs _)
  have h4 : ¬ (isOperator b = true ∧ isOperator c = true) := by
    simpa [NoAdjacentOperators] using h2
  cases hb2 : isOperator b with
  | false => rfl
  | true => exact absurd ⟨hb2, hc⟩ h4

theorem noAdjacentOperators_pushToExpression (t : Char) (s : State)
    (h : NoAdjacentOperators s.expression) :
    NoAdjacentOperators (pushToExpression [t] s).expression := by
  cases hlast : s.expression.getLast? with
  | none =>
    have hnil : s.expression = [] := List.getLast?_eq_none_iff.mp hlast
    by_cases hl : testLeadingOperator [t] = true
    · simp only [pushToExpression, hnil, hl, and_self, if_true]
      exact List.chain'_nil
    · simp only [pushToExpression, hnil, hl, false_and, if_false, sliceLast, List.getLast?_nil,
        testOperator, Bool.false_eq_true, updateDisplay, List.nil_append]
      exact NoAdjacentOperators.single t
  | some c =>
    rw [pushToExpression_expression s [t] c hlast]
    split_ifs with hop
    · refine NoAdjacentOperators.append h.dropLast (NoAdjacentOperators.single t) ?_
      intro b hb u _ hbu
      have := h.before_last hlast hop.1 b hb
      simp [this] at hbu
    · refine NoAdjacentOperators.append h (NoAdjacentOperators.single t) ?_
      intro b hb u hu hbu
      simp only [hlast, Option.mem_def, Option.some.injEq] at hb
      simp only [List.head?_cons, Option.mem_def, Option.some.injEq] at hu
      subst hb hu
      exact hop ⟨hbu.1, by simpa [testOperator] using hbu.2⟩

theorem noAdjacentOperators_append_nonOperator (e x : Str) (h : NoAdjacentOperators e)
    (hx : NoAdjacentOperators x) (hhead : ∀ t ∈ x.head?, isOperator t = false) :
    NoAdjacentOperators (e ++ x) := by
  refine NoAdjacentOperators.append h hx ?_
  intro c _ t ht hct
  have := hhead t ht
  simp [this] at hct

theorem noAdjacentOperators_clickValue_point (s : State)
    (h : NoAdjacentOperators s.expression) :
    NoAdjacentOperators (clickValue ['.'] s).expression := by
  have hpoint : (['.'] : Str) ≠ [] := by decide
  simp only [clickValue, hpoint, if_false, if_true]
  split_ifs
  · exact h
  · exact noAdjacentOperators_append_nonOperator _ _ h (by decide) (by decide)
  · have hpush : (pushToExpression ['.'] s).expression = s.expression ++ ['.'] := by
      simp only [pushToExpression, testLeadingOperator, testOperator]
      have h1 : isLeadingOperator '.' = false := by decide
      have h2 : isOperator '.' = false := by decide
      simp [h1, h2, updateDisplay]
    rw [hpush]
    exact noAdjacentOperators_append_nonOperator _ _ h (by decide) (by decide)

theorem matchAtEnd_eq_some (p : Str → Bool) :
    ∀ (e before m : Str), matchAtEnd p e = some (before, m) → e = before ++ m ∧ p m = true := by
  intro e
  induction e with
  | nil =>
    intro before m h
    simp only [matchAtEnd] at h
    split_ifs at h with hp
    simp only [Option.some.injEq, Prod.mk.injEq] at h
    obtain ⟨rfl, rfl⟩ := h
    exact ⟨rfl, hp⟩
  | cons c cs ih =>
    intro before m h
    simp only [matchAtEnd] at h
    split_ifs at h with hp
    · simp only [Option.some.injEq, Prod.mk.injEq] at h
      obtain ⟨rfl, rfl⟩ := h
      exact ⟨rfl, hp⟩
    · cases hrec : matchAtEnd p cs with
      | none => simp [hrec] at h
      | some r =>
        obtain ⟨b1, m1⟩ := r
        simp only [hrec, Option.some.injEq, Prod.mk.injEq] at h
        obtain ⟨rfl, rfl⟩ := h
        obtain ⟨h1, h2⟩ := ih b1 m1 hrec
        exact ⟨by rw [h1]; rfl, h2⟩

theorem getLast?_of_all_ne_nil {p : Char → Bool} :
    ∀ {x : Str}, x ≠ [] → x.all p = true → ∃ d, x.getLast? = some d ∧ p d = true := by
  intro x hx hall
  obtain ⟨d, hd⟩ : ∃ d, x.getLast? = some d := by
    cases h : x.getLast? with
    | none => exact absurd (List.getLast?_eq_none_iff.mp h) hx
    | some d => exact ⟨d, rfl⟩
  refine ⟨d, hd, ?_⟩
  exact List.all_eq_true.mp hall d (List.mem_of_getLast?_eq_some hd)

theorem all_takeWhile (p : Char → Bool) (x : Str) : (x.takeWhile p).all p = true := by
  rw [List.all_eq_true]
  intro c hc
  exact (List.mem_takeWhile_imp hc)

/-- A match of `\d+(\.\d+)?` ends in a digit. -/
theorem isNumber_getLast? {m : Str} (h : isNumber m = true) :
    ∃ d, m.getLast? = some d ∧ isDigit d = true := by
  simp only [isNumber, Bool.and_eq_true, Bool.not_eq_true', List.isEmpty_eq_false] at h
  obtain ⟨h1, h2⟩ := h
  have hsplit := List.takeWhile_append_dropWhile isDigit m
  cases hd : m.dropWhile isDigit with
  | nil =>
    rw [hd, List.append_nil] at hsplit
    rw [← hsplit]
    exact getLast?_of_all_ne_nil h1 (all_takeWhile isDigit m)
  | cons c r2 =>
    rw [hd] at h2
    by_cases hc : c = '.'
    · subst hc
      simp only [Bool.and_eq_true, Bool.not_eq_true', List.isEmpty_eq_false] at h2
      obtain ⟨d, hd1, hd2⟩ := getLast?_of_all_ne_nil h2.1 h2.2
      refine ⟨d, ?_, hd2⟩
      rw [← hsplit, hd, List.getLast?_append]
      have : ('.' :: r2).getLast? = some d := by
        obtain ⟨ys, hys⟩ := List.getLast?_eq_some_iff.mp hd1
        exact List.getLast?_eq_some_iff.mpr ⟨'.' :: ys, by rw [hys]; rfl⟩
      simp [this]
    · exfalso
      split at h2
      · rename_i heq
        simp at heq
      · rename_i heq
        simp only [List.cons.injEq] at heq
        exact hc heq.1
      · simp at h2

theorem digit_not_operator {d : Char} (h : isDigit d = true) : isOperator d = false := by
  simp only [isDigit, Bool.or_eq_true, decide_eq_true_eq] at h
  rcases h with (((((((((h | h) | h) | h) | h) | h) | h) | h) | h) | h) <;> subst h <;> decide

theorem noAdjacentOperators_applyPercent (s : State) (h : NoAdjacentOperators s.expression) :
    NoAdjacentOperators (applyPercent s).expression := by
  unfold applyPercent
  split
  · exact h
  · rename_i r hr
    obtain ⟨before, m⟩ := r
    obtain ⟨he, hm⟩ := matchAtEnd_eq_some isNumber _ _ _ hr
    obtain ⟨d, hd1, hd2⟩ := isNumber_getLast? hm
    have hlast : s.expression.getLast? = some d := by
      rw [he, List.getLast?_append, hd1]; rfl
    refine NoAdjacentOperators.append h (NoAdjacentOperators.single '%') ?_
    intro c hc t _ hct
    simp only [hlast, Option.mem_def, Option.some.injEq] at hc
    subst hc
    rw [digit_not_operator hd2] at hct
    simp at hct

/-- The Expression after `evaluateExpression`: unchanged, empty, or the string form of the
value the engine returns for the sanitized Expression, that value not being a non-finite
number. -/
theorem expression_evaluateExpression (run : Str → Option JsValue) (s : State) :
    (evaluateExpression run s).expression = s.expression ∨
      (evaluateExpression run s).expression = [] ∨
      ∃ x v, sanitizeForEval s.expression = .ok x ∧ run x = some v ∧
        v.isNonFiniteNumber = false ∧ (evaluateExpression run s).expression = v.toStr := by
  unfold evaluateExpression
  split_ifs with h
  · exact Or.inl rfl
  · split
    · exact Or.inr (Or.inl rfl)
    · rename_i sanitized hsan
      split
      · exact Or.inr (Or.inl rfl)
      · rename_i v hv
        cases hnf : v.isNonFiniteNumber with
        | true => right; left; simp [updateDisplay, addHistory]
        | false =>
          by_cases he : v.toStr = ['E', 'r', 'r', 'o', 'r']
          · right; left; simp [updateDisplay, addHistory, he]
          · right; right
            exact ⟨sanitized, v, hsan, hv, hnf, by simp [updateDisplay, addHistory, he]⟩

theorem mem_recordHistory {h : List HistoryItem} {expr result : Str} {item : HistoryItem}
    (hmem : item ∈ recordHistory h expr result) : item.expr = expr ∨ item ∈ h := by
  simp only [recordHistory] at hmem
  have h2 : item ∈ ({ expr := expr, result := result } :: h : List HistoryItem) := by
    split_ifs at hmem
    · exact List.mem_of_mem_dropLast hmem
    · exact hmem
  rcases List.mem_cons.mp h2 with h3 | h3
  · exact Or.inl (by rw [h3])
  · exact Or.inr h3

theorem evaluatesSeparated_toStr (run : Str → Option JsValue) (s : State) (x : Str)
    (v : JsValue) (hev : evaluatesSeparated run s = true)
    (hsan : sanitizeForEval s.expression = .ok x) (hv : run x = some v)
    (hnf : v.isNonFiniteNumber = false) : NoAdjacentOperators v.toStr := by
  simp only [evaluatesSeparated, hsan, hv, hnf, Bool.false_or, decide_eq_true_eq] at hev
  exact hev

theorem operatorsSeparated_step (run : Str → Option JsValue)
    (a : Action) (s s1 : State) (ha : isCoreAction a = true ∧ a ≠ Action.plusMinus)
    (hev : a = Action.evaluate → evaluatesSeparated run s = true)
    (hs : OperatorsSeparated s) (h : step run a s = some s1) : OperatorsSeparated s1 := by
  obtain ⟨he, hh⟩ := hs
  cases a with
  | append token =>
    simp only [step, Option.some.injEq] at h
    subst h
    have htok : isToken token = true := ha.1
    match token, htok with
    | [t], _ =>
      exact ⟨noAdjacentOperators_pushToExpression t s he, by
        rw [history_pushToExpression]; exact hh⟩
  | decimalPoint =>
    simp only [step, Option.some.injEq] at h
    subst h
    exact ⟨noAdjacentOperators_clickValue_point s he, by rw [history_clickValue]; exact hh⟩
  | backspace =>
    simp only [step, Option.some.injEq] at h
    subst h
    exact ⟨he.dropLast, hh⟩
  | clearEntry =>
    simp only [step, Option.some.injEq] at h
    subst h
    exact ⟨List.chain'_nil, hh⟩
  | clearAll =>
    simp only [step, Option.some.injEq] at h
    subst h
    exact ⟨List.chain'_nil, fun item hitem => by simp [clearAll, updateDisplay] at hitem⟩
  | plusMinus => exact absurd rfl ha.2
  | percent =>
    simp only [step, Option.some.injEq] at h
    subst h
    exact ⟨noAdjacentOperators_applyPercent s he, by rw [history_applyPercent]; exact hh⟩
  | evaluate =>
    simp only [step, Option.some.injEq] at h
    subst h
    constructor
    · rcases expression_evaluateExpression run s with h1 | h1 | ⟨x, v, hsan, hv, hnf, h1⟩
      · rw [h1]; exact he
      · rw [h1]; exact List.chain'_nil
      · rw [h1]; exact evaluatesSeparated_toStr run s x v (hev rfl) hsan hv hnf
    · intro item hitem
      rcases history_evaluateExpression run s with h1 | ⟨result, h1⟩
      · rw [h1] at hitem; exact hh item hitem
      · rw [h1] at hitem
        rcases mem_recordHistory hitem with h2 | h2
        · rw [h2]; exact he
        · exact hh item h2
  | select i =>
    simp only [step, Option.some.injEq] at h
    subst h
    refine ⟨?_, by rw [history_selectHistory]; exact hh⟩
    unfold selectHistory
    split
    · rename_i item hitem
      exact hh item (List.get?_mem hitem)
    · exact he

theorem operatorsSeparated_run (run : Str → Option JsValue) :
    ∀ (acts : List Action) (s0 s : State),
      (∀ a ∈ acts, isCoreAction a = true ∧ a ≠ Action.plusMinus) →
      evaluationsSeparated run acts s0 = true → OperatorsSeparated s0 →
      runActions run acts s0 = some s → OperatorsSeparated s := by
  intro acts
  induction acts with
  | nil =>
    intro s0 s _ _ hs h
    simp only [runActions, Option.some.injEq] at h
    exact h ▸ hs
  | cons a rest ih =>
    intro s0 s hacts hev hs h
    simp only [runActions] at h
    cases hstep : step run a s0 with
    | none => simp [hstep] at h
    | some s1 =>
      simp only [hstep] at h
      simp only [evaluationsSeparated, hstep, Bool.and_eq_true] at hev
      have hev1 : a = Action.evaluate → evaluatesSeparated run s0 = true := by
        intro ha
        simpa [ha] using hev.1
      exact ih s1 s (fun b hb => hacts b (List.mem_cons_of_mem a hb)) hev.2
        (operatorsSeparated_step run a s0 s1 (hacts a (List.mem_cons_self a rest)) hev1 hs
          hstep) h

/-- C6 as stated fails, in two ways.  The keys `1`, `2`, `+`, `5` and then the sign toggle
lead from the initial state to the Expression `12+-5`, in which `+` and `-` are consecutive.
And the keys `( / 5 / ) + ( / 5 / )` followed by evaluate lead to the Expression `/5//5/`:
the sanitizer accepts the text and the engine returns the sum of two regular expression
literals, a string. -/
theorem operators_adjacent_counterexample :
    ((∀ a ∈ [Action.append ['1'], Action.append ['2'], Action.append ['+'],
        Action.append ['5'], Action.plusMinus], isCoreAction a = true) ∧
      (runActions sampleEngine
        [Action.append ['1'], Action.append ['2'], Action.append ['+'], Action.append ['5'],
          Action.plusMinus] initial).map State.expression = some ['1', '2', '+', '-', '5'] ∧
      ¬ NoAdjacentOperators ['1', '2', '+', '-', '5']) ∧
      ((∀ a ∈ [Action.append ['('], Action.append ['/'], Action.append ['5'],
        Action.append ['/'], Action.append [')'], Action.append ['+'], Action.append ['('],
        Action.append ['/'], Action.append ['5'], Action.append ['/'], Action.append [')'],
        Action.evaluate], isCoreAction a = true ∧ a ≠ Action.plusMinus) ∧
      sanitizeForEval ['(', '/', '5', '/', ')', '+', '(', '/', '5', '/', ')']
        = .ok ['(', '/', '5', '/', ')', '+', '(', '/', '5', '/', ')'] ∧
      (runActions regexEngine
        [Action.append ['('], Action.append ['/'], Action.append ['5'], Action.append ['/'],
          Action.append [')'], Action.append ['+'], Action.append ['('], Action.append ['/'],
          Action.append ['5'], Action.append ['/'], Action.append [')'], Action.evaluate]
        initial).map State.expression = some ['/', '5', '/', '/', '5', '/'] ∧
      ¬ NoAdjacentOperators ['/', '5', '/', '/', '5', '/']) := by
  decide

/-- C6, amended: in every state reached from the initial state by a run of core operations
other than the sign toggle (append of a digit, operator or parenthesis; decimal point;
backspace; clearEntry; clearAll; applyPercent; evaluate; history select) in which no
evaluation returns a value, other than a non-finite number, whose string form has two
consecutive operators, the Expression has no two consecutive characters of `+ - * / %`. -/
theorem operators_separated_without_plusMinus (run : Str → Option JsValue)
    (acts : List Action)
    (hacts : ∀ a ∈ acts, isCoreAction a = true ∧ a ≠ Action.plusMinus)
    (heval : evaluationsSeparated run acts initial = true)
    (s : State) (h : runActions run acts initial = some s) :
    NoAdjacentOperators s.expression :=
  (operatorsSeparated_run run acts initial s hacts heval
    ⟨List.chain'_nil, fun _ hitem => by simp [initial] at hitem⟩ h).1

/-- C6, amended, on the run `2`, `+`, `2`, evaluate, select the first ledger entry, `-`,
`*`: the evaluation returns the number 4, and the Expression at the end is `2+2*`. -/
theorem operators_separated_without_plusMinus_witness :
    NoAdjacentOperators ['2', '+', '2', '*'] :=
  operators_separated_without_plusMinus sampleEngine
    [Action.append ['2'], Action.append ['+'], Action.append ['2'], Action.evaluate,
      Action.select 0, Action.append ['-'], Action.append ['*']]
    (by decide) (by decide)
    { expression := ['2', '+', '2', '*'], previousExpression := ['2', '+', '2', ' ', '='],
      history := [{ expr := ['2', '+', '2'], result := ['4'] }],
      current := ['2', '+', '2', '*'], previous := ['2', '+', '2', ' ', '='], timers := 0 }
    (by decide)

/-! ### Decimal points -/

/-- C7 fails on the code: the keys `(`, `1`, `)`, `.`, `5`, `.` lead from the initial state
to the Expression `(1).5.`, whose numeric token `.5.` has two decimal points.  The second
`.` is accepted because the listener looks for `\d+\.\d*|\d+` at the end, which finds `5`
and not `.5`. -/
theorem decimalPoint_twice_in_token :
    (∀ a ∈ [Action.append ['('], Action.append ['1'], Action.append [')'],
        Action.decimalPoint, Action.append ['5'], Action.decimalPoint],
        isCoreAction a = true ∧ a ≠ Action.evaluate) ∧
      (runActions sampleEngine
        [Action.append ['('], Action.append ['1'], Action.append [')'], Action.decimalPoint,
          Action.append ['5'], Action.decimalPoint] initial).map State.expression
        = some ['(', '1', ')', '.', '5', '.'] ∧
      numericTokens ['(', '1', ')', '.', '5', '.'] = [['1'], ['.', '5', '.']] ∧
      List.count '.' ['.', '5', '.'] = 2 := by
  decide

/-! ### Sanitizer -/

theorem dropWhile_append_stop (p : Char → Bool) (a : Char) (rest : Str) (ha : p a = false) :
    ∀ ws : Str, (∀ c ∈ ws, p c = true) → (ws ++ a :: rest).dropWhile p = a :: rest := by
  intro ws
  induction ws with
  | nil => intro _; simp [List.dropWhile, ha]
  | cons w ws ih =>
    intro h
    have hw : p w = true := h w (List.mem_cons_self w ws)
    simp only [List.cons_append, List.dropWhile, hw]
    exact ih (fun c hc => h c (List.mem_cons_of_mem w hc))

theorem takeWhile_append_stop (p : Char → Bool) (a : Char) (rest : Str) (ha : p a = false) :
    ∀ ws : Str, (∀ c ∈ ws, p c = true) → (ws ++ a :: rest).takeWhile p = ws := by
  intro ws
  induction ws with
  | nil => intro _; simp [List.takeWhile, ha]
  | cons w ws ih =>
    intro h
    have hw : p w = true := h w (List.mem_cons_self w ws)
    have ih2 := ih (fun c hc => h c (List.mem_cons_of_mem w hc))
    simp only [List.cons_append, List.takeWhile, hw]
    exact congrArg (List.cons w) ih2

theorem emptyParensAt_iff (x : Str) :
    emptyParensAt x = true ↔
      ∃ ws after : Str, x = '(' :: (ws ++ ')' :: after) ∧ ∀ c ∈ ws, isSpace c = true := by
  constructor
  · intro h
    unfold emptyParensAt at h
    split at h
    · rename_i rest
      split at h
      · rename_i after hdrop
        refine ⟨rest.takeWhile isSpace, after, ?_, fun c hc => List.mem_takeWhile_imp hc⟩
        rw [← hdrop, List.takeWhile_append_dropWhile]
      · simp at h
    · simp at h
  · rintro ⟨ws, after, rfl, hws⟩
    simp only [emptyParensAt]
    rw [dropWhile_append_stop isSpace ')' after (by decide) ws hws]
    rfl

/-- The test `/\(\s*\)/` decides the presence of an empty parenthesis pair. -/
theorem testEmptyParens_iff (x : Str) : testEmptyParens x = true ↔ HasEmptyParens x := by
  induction x with
  | nil =>
    simp only [testEmptyParens, Bool.false_eq_true, false_iff]
    rintro ⟨before, ws, after, h, _⟩
    simp at h
  | cons c cs ih =>
    simp only [testEmptyParens, Bool.or_eq_true, ih, emptyParensAt_iff]
    constructor
    · rintro (⟨ws, after, h, hws⟩ | ⟨before, ws, after, h, hws⟩)
      · exact ⟨[], ws, after, h, hws⟩
      · exact ⟨c :: before, ws, after, by rw [h]; rfl, hws⟩
    · rintro ⟨before, ws, after, h, hws⟩
      cases before with
      | nil => exact Or.inl ⟨ws, after, h, hws⟩
      | cons b before =>
        simp only [List.cons_append, List.cons.injEq] at h
        exact Or.inr ⟨before, ws, after, h.2, hws⟩

theorem testAllowed_iff (x : Str) :
    testAllowed x = true ↔ x ≠ [] ∧ ∀ c ∈ x, isAllowed c = true := by
  cases x with
  | nil => simp [testAllowed]
  | cons c cs => simp [testAllowed]

/-- C8 as stated fails on the empty string: it is its own normal form, it has no character
outside the permitted set and no empty parenthesis pair, and `sanitizeForEval` fails on
it. -/
theorem sanitizeForEval_empty_counterexample :
    replaceGlyphs (expandPercent []) = [] ∧
      sanitizeForEval [] = .error .notAllowed ∧
      ¬ ((∃ c ∈ replaceGlyphs (expandPercent []), isAllowed c = false) ∨
        HasEmptyParens (replaceGlyphs (expandPercent []))) := by
  refine ⟨rfl, rfl, ?_⟩
  rintro (⟨c, hc, _⟩ | ⟨before, ws, after, h, _⟩)
  · simp [replaceGlyphs, expandPercent, expandPercentFrom] at hc
  · simp [replaceGlyphs, expandPercent, expandPercentFrom] at h

/-- C8, amended: with `n` the string after percent expansion and glyph replacement,
`sanitizeForEval` fails if and only if `n` is empty, or has a character outside
`0-9 + - * / . ( ) %` and white space, or has an empty parenthesis pair; in every other case
it returns `n`. -/
theorem sanitizeForEval_fails_iff (input : Str) :
    ((∃ err, sanitizeForEval input = .error err) ↔
        (replaceGlyphs (expandPercent input) = [] ∨
          (∃ c ∈ replaceGlyphs (expandPercent input), isAllowed c = false) ∨
          HasEmptyParens (replaceGlyphs (expandPercent input)))) ∧
      (¬ (replaceGlyphs (expandPercent input) = [] ∨
          (∃ c ∈ replaceGlyphs (expandPercent input), isAllowed c = false) ∨
          HasEmptyParens (replaceGlyphs (expandPercent input))) →
        sanitizeForEval input = .ok (replaceGlyphs (expandPercent input))) := by
  have hallowed : testAllowed (replaceGlyphs (expandPercent input)) = false ↔
      (replaceGlyphs (expandPercent input) = [] ∨
        ∃ c ∈ replaceGlyphs (expandPercent input), isAllowed c = false) := by
    rw [← Bool.not_eq_true, testAllowed_iff]
    constructor
    · intro h
      by_cases hnil : replaceGlyphs (expandPercent input) = []
      · exact Or.inl hnil
      · right
        by_contra hall
        apply h
        refine ⟨hnil, fun c hc => ?_⟩
        by_contra hcne
        exact hall ⟨c, hc, by simpa using hcne⟩
    · rintro (h | ⟨c, hc, hcf⟩) ⟨h1, h2⟩
      · exact h1 h
      · rw [h2 c hc] at hcf
        exact absurd hcf (by decide)
  have hparens := testEmptyParens_iff (replaceGlyphs (expandPercent input))
  by_cases h1 : testAllowed (replaceGlyphs (expandPercent input)) = false
  · have hres : sanitizeForEval input = .error .notAllowed := by
      simp only [sanitizeForEval, h1, if_true]
    have hor := hallowed.mp h1
    refine ⟨⟨fun _ => ?_, fun _ => ⟨_, hres⟩⟩, fun hn => ?_⟩
    · rcases hor with h | h
      · exact Or.inl h
      · exact Or.inr (Or.inl h)
    · exfalso
      apply hn
      rcases hor with h | h
      · exact Or.inl h
      · exact Or.inr (Or.inl h)
  · have hnot : ¬ (replaceGlyphs (expandPercent input) = [] ∨
        ∃ c ∈ replaceGlyphs (expandPercent input), isAllowed c = false) :=
      fun h => h1 (hallowed.mpr h)
    by_cases h2 : testEmptyParens (replaceGlyphs (expandPercent input)) = true
    · have hres : sanitizeForEval input = .error .emptyParens := by
        have h1t : testAllowed (replaceGlyphs (expandPercent input)) = true := by
          simpa using h1
        simp [sanitizeForEval, h1t, h2]
      refine ⟨⟨fun _ => Or.inr (Or.inr (hparens.mp h2)), fun _ => ⟨_, hres⟩⟩, fun hn => ?_⟩
      exact absurd (Or.inr (Or.inr (hparens.mp h2))) hn
    · have hres : sanitizeForEval input = .ok (replaceGlyphs (expandPercent input)) := by
        have h1t : testAllowed (replaceGlyphs (expandPercent input)) = true := by
          simpa using h1
        have h2f : testEmptyParens (replaceGlyphs (expandPercent input)) = false := by
          simpa using h2
        simp [sanitizeForEval, h1t, h2f]
      refine ⟨⟨fun ⟨err, herr⟩ => ?_, fun h => ?_⟩, fun _ => hres⟩
      · rw [hres] at herr
        cases herr
      · rcases h with h | h | h
        · exact absurd (Or.inl h) hnot
        · exact absurd (Or.inr h) hnot
        · exact absurd (hparens.mpr h) h2

/-! ### Percent expansion -/

theorem digit_facts {d : Char} (h : isDigit d = true) :
    replaceGlyph d = d ∧ isAllowed d = true ∧ isSpace d = false ∧ d ≠ '(' ∧ d ≠ ')' ∧
      d ≠ '%' ∧ d ≠ '.' := by
  simp only [isDigit, Bool.or_eq_true, decide_eq_true_eq] at h
  rcases h with (((((((((h | h) | h) | h) | h) | h) | h) | h) | h) | h) <;> subst h <;> decide

/-- The characters of a number literal are digits and `.`. -/
theorem IsNumberLiteral.chars {n : Str} (h : IsNumberLiteral n) :
    ∀ c ∈ n, isDigit c = true ∨ c = '.' := by
  obtain ⟨d1, _, hd1, hn⟩ := h
  intro c hc
  rcases hn with rfl | ⟨d2, _, hd2, rfl⟩
  · exact Or.inl (hd1 c hc)
  · rcases List.mem_append.mp hc with h1 | h1
    · exact Or.inl (hd1 c h1)
    · rcases List.mem_cons.mp h1 with h2 | h2
      · exact Or.inr h2
      · exact Or.inl (hd2 c h2)

/-- A number literal starts with a digit. -/
theorem IsNumberLiteral.head {n : Str} (h : IsNumberLiteral n) :
    ∃ d rest, n = d :: rest ∧ isDigit d = true := by
  obtain ⟨d1, hne, hd1, hn⟩ := h
  cases d1 with
  | nil => exact absurd rfl hne
  | cons d r =>
    have hd : isDigit d = true := hd1 d (List.mem_cons_self d r)
    rcases hn with rfl | ⟨d2, _, _, rfl⟩
    · exact ⟨d, r, rfl, hd⟩
    · exact ⟨d, r ++ '.' :: d2, rfl, hd⟩

theorem IsNumberLiteral.percent_not_mem {n : Str} (h : IsNumberLiteral n) : '%' ∉ n := by
  intro hmem
  rcases h.chars '%' hmem with h1 | h1
  · exact absurd h1 (by decide)
  · exact absurd h1 (by decide)

/-- The regular expression `(\d+(\.\d+)?)%` matches a number literal followed by `%`. -/
theorem matchPercent_literal {n : Str} (h : IsNumberLiteral n) (after : Str) :
    matchPercent (n ++ '%' :: after) = some (n, after) := by
  obtain ⟨d1, hne, hd1, hn⟩ := h
  rcases hn with hn | ⟨d2, hne2, hd2, hn⟩ <;> rw [hn]
  · simp only [matchPercent]
    rw [takeWhile_append_stop isDigit '%' after (by decide) d1 hd1,
      dropWhile_append_stop isDigit '%' after (by decide) d1 hd1]
    simp [hne]
  · simp only [matchPercent, List.append_assoc, List.cons_append]
    rw [takeWhile_append_stop isDigit '.' _ (by decide) d1 hd1,
      dropWhile_append_stop isDigit '.' _ (by decide) d1 hd1]
    simp only [hne, if_false]
    rw [takeWhile_append_stop isDigit '%' after (by decide) d2 hd2,
      dropWhile_append_stop isDigit '%' after (by decide) d2 hd2]
    simp [hne2]

/-- A match of `(\d+(\.\d+)?)%` at the start of `x` is a number literal followed by `%`. -/
theorem matchPercent_eq_some {x num after : Str} (h : matchPercent x = some (num, after)) :
    x = num ++ '%' :: after ∧ IsNumberLiteral num := by
  have hsplit := List.takeWhile_append_dropWhile isDigit x
  have hd1 : ∀ c ∈ x.takeWhile isDigit, isDigit c = true :=
    fun c hc => List.mem_takeWhile_imp hc
  simp only [matchPercent] at h
  split_ifs at h with h1
  split at h
  · rename_i rest hrest
    simp only [Option.some.injEq, Prod.mk.injEq] at h
    obtain ⟨rfl, rfl⟩ := h
    exact ⟨by rw [← hrest, hsplit], _, h1, hd1, Or.inl rfl⟩
  · rename_i r2 hrest
    have hsplit2 := List.takeWhile_append_dropWhile isDigit r2
    have hd2 : ∀ c ∈ r2.takeWhile isDigit, isDigit c = true :=
      fun c hc => List.mem_takeWhile_imp hc
    split_ifs at h with h2
    split at h
    · rename_i rest hrest2
      simp only [Option.some.injEq, Prod.mk.injEq] at h
      obtain ⟨rfl, rfl⟩ := h
      refine ⟨?_, _, h1, hd1, Or.inr ⟨_, h2, hd2, rfl⟩⟩
      rw [List.append_assoc, List.cons_append, ← hrest2, hsplit2, ← hrest, hsplit]
    · simp at h
  · simp at h

theorem expandPercentFrom_drop :
    ∀ (x : Str) (k : Nat), expandPercentFrom k x = expandPercentFrom 0 (x.drop k) := by
  intro x
  induction x with
  | nil => intro k; simp [expandPercentFrom]
  | cons c cs ih =>
    intro k
    cases k with
    | zero => rfl
    | succ k => simp only [expandPercentFrom, List.drop_succ_cons]; exact ih k

/-- Where the regular expression matches, the match is replaced and the scan goes on
after it. -/
theorem expandPercent_of_match {x num after : Str} (h : matchPercent x = some (num, after)) :
    expandPercent x = '(' :: (num ++ ['/', '1', '0', '0', ')'] ++ expandPercent after) := by
  obtain ⟨hx, hnum⟩ := matchPercent_eq_some h
  obtain ⟨d, rest, hnum2, _⟩ := hnum.head
  cases x with
  | nil => simp [hnum2] at hx
  | cons c cs =>
    simp only [expandPercent, expandPercentFrom, h]
    rw [expandPercentFrom_drop cs num.length]
    have hcs : cs.drop num.length = after := by
      have h3 : cs = rest ++ '%' :: after := by
        rw [hnum2] at hx
        simp only [List.cons_append, List.cons.injEq] at hx
        exact hx.2
      have h4 : num.length = rest.length + 1 := by rw [hnum2]; rfl
      rw [h3, h4, List.drop_append_eq_append_drop]
      simp
    rw [hcs]

/-- Where the regular expression does not match, the character is kept and the scan goes on
at the next one. -/
theorem expandPercent_of_no_match {c : Char} {cs : Str} (h : matchPercent (c :: cs) = none) :
    expandPercent (c :: cs) = c :: expandPercent cs := by
  simp only [expandPercent, expandPercentFrom, h]

theorem append_cons_inj_of_not_mem (x : Char) :
    ∀ (a b r r1 : Str), x ∉ a → x ∉ b → a ++ x :: r = b ++ x :: r1 → a = b ∧ r = r1 := by
  intro a
  induction a with
  | nil =>
    intro b r r1 _ hb h
    cases b with
    | nil => simp only [List.nil_append, List.cons.injEq, true_and] at h; exact ⟨rfl, h⟩
    | cons y b =>
      simp only [List.nil_append, List.cons_append, List.cons.injEq] at h
      exact absurd (h.1 ▸ List.mem_cons_self y b) hb
  | cons z a ih =>
    intro b r r1 ha hb h
    cases b with
    | nil =>
      simp only [List.nil_append, List.cons_append, List.cons.injEq] at h
      exact absurd (h.1 ▸ List.mem_cons_self z a) ha
    | cons y b =>
      simp only [List.cons_append, List.cons.injEq] at h
      obtain ⟨h1, h2⟩ := ih b r r1 (fun hm => ha (List.mem_cons_of_mem z hm))
        (fun hm => hb (List.mem_cons_of_mem y hm)) h.2
      exact ⟨by rw [h.1, h1], h2⟩

theorem expandPercent_literal_aux {n : Str} (hn : IsNumberLiteral n) (after : Str) :
    ∀ (k : Nat) (before : Str), before.length ≤ k →
      (∀ u : Str, u ≠ [] → u <:+ before → ¬ IsNumberLiteral (u ++ n)) →
      expandPercent (before ++ (n ++ '%' :: after)) =
        expandPercent before ++
          '(' :: (n ++ ['/', '1', '0', '0', ')'] ++ expandPercent after) := by
  intro k
  induction k with
  | zero =>
    intro before hlen _
    have hnil : before = [] := List.length_eq_zero.mp (Nat.le_zero.mp hlen)
    subst hnil
    exact expandPercent_of_match (matchPercent_literal hn after)
  | succ k ih =>
    intro before hlen hmax
    cases before with
    | nil => exact expandPercent_of_match (matchPercent_literal hn after)
    | cons c rest =>
      have hlen2 : rest.length ≤ k := by
        simp only [List.length_cons] at hlen; omega
      cases hm : matchPercent ((c :: rest) ++ (n ++ '%' :: after)) with
      | none =>
        have hm2 : matchPercent (c :: rest) = none := by
          cases hm3 : matchPercent (c :: rest) with
          | none => rfl
          | some r =>
            obtain ⟨num, rest2⟩ := r
            obtain ⟨h1, h2⟩ := matchPercent_eq_some hm3
            have h3 := matchPercent_literal h2 (rest2 ++ (n ++ '%' :: after))
            rw [h1] at hm
            simp only [List.append_assoc, List.cons_append] at hm
            rw [h3] at hm
            cases hm
        have hm4 : matchPercent (c :: (rest ++ (n ++ '%' :: after))) = none := hm
        rw [List.cons_append, expandPercent_of_no_match hm4, expandPercent_of_no_match hm2,
          ih rest hlen2 (fun u hu hsuf => hmax u hu (hsuf.trans (List.suffix_cons c rest)))]
        rfl
      | some r =>
        obtain ⟨num, rest2⟩ := r
        obtain ⟨h1, h2⟩ := matchPercent_eq_some hm
        rcases List.append_eq_append_iff.mp h1 with ⟨a1, ha1, ha2⟩ | ⟨c1, hc1, hc2⟩
        · -- the match ends beyond `before`: it would extend the literal to the left
          exfalso
          obtain ⟨h3, _⟩ := append_cons_inj_of_not_mem '%' n a1 after rest2
            hn.percent_not_mem
            (fun hmem => h2.percent_not_mem (by rw [ha1]; exact List.mem_append_right _ hmem))
            ha2
          rw [← h3] at ha1
          exact hmax (c :: rest) (by simp) (List.suffix_refl _) (ha1 ▸ h2)
        · -- the match lies in `before`
          cases c1 with
          | nil =>
            exfalso
            obtain ⟨d, r3, hd, hdig⟩ := hn.head
            rw [hd] at hc2
            simp only [List.nil_append, List.cons_append, List.cons.injEq] at hc2
            rw [← hc2.1] at hdig
            exact absurd hdig (by decide)
          | cons y c2 =>
            simp only [List.cons_append, List.cons.injEq] at hc2
            obtain ⟨hy, hrest2⟩ := hc2
            subst hy
            have hbefore : c :: rest = num ++ '%' :: c2 := hc1
            have hlen3 : c2.length ≤ k := by
              have := congrArg List.length hbefore
              simp only [List.length_cons, List.length_append] at this
              omega
            have hsuf : c2 <:+ c :: rest := by
              rw [hbefore]
              exact (List.suffix_cons '%' c2).trans (List.suffix_append num _)
            rw [expandPercent_of_match hm, hrest2,
              ih c2 hlen3 (fun u hu hs => hmax u hu (hs.trans hsuf)), hbefore,
              expandPercent_of_match (matchPercent_literal h2 c2)]
            simp

/-- Percent expansion leaves a string without a number literal followed by `%` as it is. -/
theorem expandPercent_of_no_literal :
    ∀ x : Str, (¬ ∃ before n after : Str, IsNumberLiteral n ∧ x = before ++ (n ++ '%' :: after)) →
      expandPercent x = x := by
  intro x
  induction x with
  | nil => intro _; rfl
  | cons c cs ih =>
    intro h
    cases hm : matchPercent (c :: cs) with
    | some r =>
      obtain ⟨num, rest⟩ := r
      obtain ⟨h1, h2⟩ := matchPercent_eq_some hm
      exact absurd ⟨[], num, rest, h2, h1⟩ h
    | none =>
      rw [expandPercent_of_no_match hm, ih]
      rintro ⟨before, n, after, hn, hx⟩
      exact h ⟨c :: before, n, after, hn, by rw [hx]; rfl⟩

theorem literal_char_facts {c : Char} (h : isDigit c = true ∨ c = '.') :
    replaceGlyph c = c ∧ isAllowed c = true ∧ isSpace c = false ∧ c ≠ '(' ∧ c ≠ ')' := by
  rcases h with h | h
  · obtain ⟨h1, h2, h3, h4, h5, _⟩ := digit_facts h
    exact ⟨h1, h2, h3, h4, h5⟩
  · subst h
    decide

theorem division_char_facts {c : Char} (h : c ∈ ['/', '1', '0', '0', ')']) :
    replaceGlyph c = c ∧ isAllowed c = true ∧ c ≠ '(' := by
  simp only [List.mem_cons, List.mem_singleton, List.not_mem_nil, or_false] at h
  rcases h with h | h | h | h | h <;> subst h <;> decide

/-- The sanitizer on a number literal followed by `%`. -/
theorem sanitizeForEval_literal_percent {n : Str} (hn : IsNumberLiteral n) :
    sanitizeForEval (n ++ ['%']) = .ok ('(' :: (n ++ ['/', '1', '0', '0', ')'])) := by
  have hexp : expandPercent (n ++ ['%']) = '(' :: (n ++ ['/', '1', '0', '0', ')']) := by
    rw [expandPercent_of_match (matchPercent_literal hn [])]
    simp [expandPercent, expandPercentFrom]
  have hchars : ∀ c ∈ ('(' :: (n ++ ['/', '1', '0', '0', ')']) : Str),
      replaceGlyph c = c ∧ isAllowed c = true := by
    intro c hc
    rcases List.mem_cons.mp hc with h | h
    · subst h; decide
    · rcases List.mem_append.mp h with h1 | h1
      · exact ⟨(literal_char_facts (hn.chars c h1)).1, (literal_char_facts (hn.chars c h1)).2.1⟩
      · exact ⟨(division_char_facts h1).1, (division_char_facts h1).2.1⟩
  have hglyph : replaceGlyphs ('(' :: (n ++ ['/', '1', '0', '0', ')'])) =
      '(' :: (n ++ ['/', '1', '0', '0', ')']) := by
    unfold replaceGlyphs
    conv_rhs => rw [← List.map_id ('(' :: (n ++ ['/', '1', '0', '0', ')']))]
    exact List.map_congr_left (fun c hc => (hchars c hc).1)
  have hallowed : testAllowed ('(' :: (n ++ ['/', '1', '0', '0', ')'])) = true :=
    (testAllowed_iff _).mpr ⟨by simp, fun c hc => (hchars c hc).2⟩
  have hparens : testEmptyParens ('(' :: (n ++ ['/', '1', '0', '0', ')'])) = false := by
    rw [← Bool.not_eq_true, testEmptyParens_iff]
    rintro ⟨before, ws, after, h, hws⟩
    obtain ⟨d, rest, hd, hdig⟩ := hn.head
    obtain ⟨_, _, hsp, _, hclose, _⟩ := digit_facts hdig
    cases before with
    | nil =>
      simp only [List.nil_append, List.cons.injEq, true_and] at h
      rw [hd] at h
      cases ws with
      | nil =>
        simp only [List.cons_append, List.nil_append, List.cons.injEq] at h
        exact hclose h.1
      | cons w ws =>
        simp only [List.cons_append, List.cons.injEq] at h
        have := hws w (List.mem_cons_self w ws)
        rw [← h.1, hsp] at this
        cases this
    | cons b before =>
      simp only [List.cons_append, List.cons.injEq] at h
      have hmem : '(' ∈ n ++ ['/', '1', '0', '0', ')'] := by
        rw [h.2]
        exact List.mem_append_right _ (List.mem_cons_self _ _)
      rcases List.mem_append.mp hmem with h1 | h1
      · exact (literal_char_facts (hn.chars _ h1)).2.2.2.1 rfl
      · exact (division_char_facts h1).2.2 rfl
  simp only [sanitizeForEval, hexp, hglyph, hallowed, hparens]
  simp

/-- C9: on a number literal `n` followed by `%` the sanitizer returns `(n/100)`; percent
expansion replaces a literal `n` followed by `%` that no character before it extends to a
longer literal by `(n/100)`, and expands what is before and what is after it separately; it
changes nothing in a string with no literal followed by `%`; and `50%` sanitizes to
`(50/100)`. -/
theorem sanitizeForEval_percent :
    (∀ n : Str, IsNumberLiteral n →
      sanitizeForEval (n ++ ['%']) = .ok ('(' :: (n ++ ['/', '1', '0', '0', ')']))) ∧
      (∀ before n after : Str, IsNumberLiteral n →
        (∀ u : Str, u ≠ [] → u <:+ before → ¬ IsNumberLiteral (u ++ n)) →
        expandPercent (before ++ (n ++ '%' :: after)) =
          expandPercent before ++
            '(' :: (n ++ ['/', '1', '0', '0', ')'] ++ expandPercent after)) ∧
      (∀ x : Str,
        (¬ ∃ before n after : Str, IsNumberLiteral n ∧ x = before ++ (n ++ '%' :: after)) →
        expandPercent x = x) ∧
      sanitizeForEval ['5', '0', '%'] = .ok ['(', '5', '0', '/', '1', '0', '0', ')'] :=
  ⟨fun _ hn => sanitizeForEval_literal_percent hn,
    fun before _ after hn hmax =>
      expandPercent_literal_aux hn after before.length before (Nat.le_refl _) hmax,
    expandPercent_of_no_literal, by decide⟩

/-! ### Non-finite results -/

/-- C10: for a non-empty Expression `e` whose sanitized form the engine evaluates to a
non-finite number, `evaluateExpression` leaves the Expression empty and the ledger with the
entry `{e, Error}` in front: the ledger is one `addHistory` of that entry on the prior
ledger, which for a prior ledger of at most 20 entries is the entry followed by the prior
entries, cut to 20. -/
theorem evaluateExpression_nonFinite (run : Str → Option JsValue) (s : State)
    (sanitized r : Str)
    (hne : s.expression ≠ [])
    (hsan : sanitizeForEval s.expression = .ok sanitized)
    (hrun : run sanitized = some (.number false r)) :
    (evaluateExpression run s).expression = [] ∧
      (evaluateExpression run s).history.head?
        = some { expr := s.expression, result := ['E', 'r', 'r', 'o', 'r'] } ∧
      (evaluateExpression run s).history
        = recordHistory s.history s.expression ['E', 'r', 'r', 'o', 'r'] ∧
      (s.history.length ≤ 20 →
        (evaluateExpression run s).history =
          ({ expr := s.expression, result := ['E', 'r', 'r', 'o', 'r'] } :: s.history).take 20) := by
  have hhist : (evaluateExpression run s).history
      = recordHistory s.history s.expression ['E', 'r', 'r', 'o', 'r'] := by
    simp [evaluateExpression, hne, hsan, hrun, JsValue.isNonFiniteNumber, updateDisplay,
      addHistory]
  refine ⟨?_, ?_, hhist, ?_⟩
  · simp [evaluateExpression, hne, hsan, hrun, JsValue.isNonFiniteNumber, updateDisplay,
      addHistory]
  · rw [hhist]
    simp only [recordHistory]
    split_ifs with hlen
    · cases hh : s.history with
      | nil => simp [hh] at hlen
      | cons a rest => simp [List.dropLast]
    · rfl
  · intro hlen
    rw [hhist, recordHistory_eq_take _ _ _ hlen]

/-- C10, at the Expression `5/0` in the initial state. -/
theorem evaluateExpression_nonFinite_witness :
    (evaluateExpression sampleEngine { initial with expression := ['5', '/', '0'] }).expression
        = [] ∧
      (evaluateExpression sampleEngine
        { initial with expression := ['5', '/', '0'] }).history.head?
        = some { expr := ['5', '/', '0'], result := ['E', 'r', 'r', 'o', 'r'] } ∧
      (evaluateExpression sampleEngine { initial with expression := ['5', '/', '0'] }).history
        = recordHistory [] ['5', '/', '0'] ['E', 'r', 'r', 'o', 'r'] ∧
      ((0 : Nat) ≤ 20 →
        (evaluateExpression sampleEngine { initial with expression := ['5', '/', '0'] }).history
          = [{ expr := ['5', '/', '0'], result := ['E', 'r', 'r', 'o', 'r'] }]) :=
  evaluateExpression_nonFinite sampleEngine { initial with expression := ['5', '/', '0'] }
    ['5', '/', '0'] ['I', 'n', 'f', 'i', 'n', 'i', 't', 'y'] (by decide) (by decide) (by decide)

/-! ### Display after an evaluation -/

/-- The display after `evaluateExpression` on a non-finite number: the Expression was reset
before `updateDisplay` ran, so the display shows `0`, and no timer is scheduled. -/
theorem current_evaluateExpression_nonFinite (run : Str → Option JsValue) (s : State)
    (sanitized r : Str)
    (hne : s.expression ≠ [])
    (hsan : sanitizeForEval s.expression = .ok sanitized)
    (hrun : run sanitized = some (.number false r)) :
    (evaluateExpression run s).current = ['0'] ∧
      (evaluateExpression run s).timers = s.timers := by
  simp [evaluateExpression, hne, hsan, hrun, JsValue.isNonFiniteNumber, updateDisplay,
    addHistory]

/-- C11 fails on the code: for the Expression `5/0`, whose value is `Infinity`, the display
when `evaluateExpression` returns is `0` and not `Error`; the word `Error` goes to the ledger
entry only.  No timer is scheduled. -/
theorem display_nonFinite_is_zero :
    (evaluateExpression sampleEngine { initial with expression := ['5', '/', '0'] }).current
        = ['0'] ∧
      (evaluateExpression sampleEngine { initial with expression := ['5', '/', '0'] }).current
        ≠ ['E', 'r', 'r', 'o', 'r'] ∧
      (evaluateExpression sampleEngine { initial with expression := ['5', '/', '0'] }).history
        = [{ expr := ['5', '/', '0'], result := ['E', 'r', 'r', 'o', 'r'] }] ∧
      (evaluateExpression sampleEngine { initial with expression := ['5', '/', '0'] }).timers
        = 0 := by
  decide

/-- C12: for a non-empty Expression that the sanitizer rejects, or whose sanitized form the
engine throws on, `evaluateExpression` leaves the Expression and the PreviousExpression
empty, the display `Error`, and the ledger as it was; one display refresh is scheduled. -/
theorem evaluateExpression_invalid (run : Str → Option JsValue) (s : State)
    (hne : s.expression ≠ [])
    (hfail : (∃ err, sanitizeForEval s.expression = .error err) ∨
      ∃ sanitized, sanitizeForEval s.expression = .ok sanitized ∧ run sanitized = none) :
    (evaluateExpression run s).expression = [] ∧
      (evaluateExpression run s).previousExpression = [] ∧
      (evaluateExpression run s).current = ['E', 'r', 'r', 'o', 'r'] ∧
      (evaluateExpression run s).history = s.history ∧
      (evaluateExpression run s).timers = s.timers + 1 := by
  rcases hfail with ⟨err, herr⟩ | ⟨sanitized, hsan, hrun⟩
  · simp [evaluateExpression, hne, herr, evaluateFailed]
  · simp [evaluateExpression, hne, hsan, hrun, evaluateFailed]

/-- C12, at the Expression `2+`, on which the engine throws, in a state with a
PreviousExpression and one ledger entry. -/
theorem evaluateExpression_invalid_witness :
    (evaluateExpression sampleEngine
        { expression := ['2', '+'], previousExpression := ['2', '+', '2', ' ', '='],
          history := [{ expr := ['2', '+', '2'], result := ['4'] }],
          current := ['2', '+'], previous := ['2', '+', '2', ' ', '='], timers := 0 }).expression
        = [] ∧
      (evaluateExpression sampleEngine
        { expression := ['2', '+'], previousExpression := ['2', '+', '2', ' ', '='],
          history := [{ expr := ['2', '+', '2'], result := ['4'] }],
          current := ['2', '+'], previous := ['2', '+', '2', ' ', '='],
          timers := 0 }).previousExpression = [] ∧
      (evaluateExpression sampleEngine
        { expression := ['2', '+'], previousExpression := ['2', '+', '2', ' ', '='],
          history := [{ expr := ['2', '+', '2'], result := ['4'] }],
          current := ['2', '+'], previous := ['2', '+', '2', ' ', '='], timers := 0 }).current
        = ['E', 'r', 'r', 'o', 'r'] ∧
      (evaluateExpression sampleEngine
        { expression := ['2', '+'], previousExpression := ['2', '+', '2', ' ', '='],
          history := [{ expr := ['2', '+', '2'], result := ['4'] }],
          current := ['2', '+'], previous := ['2', '+', '2', ' ', '='], timers := 0 }).history
        = [{ expr := ['2', '+', '2'], result := ['4'] }] ∧
      (evaluateExpression sampleEngine
        { expression := ['2', '+'], previousExpression := ['2', '+', '2', ' ', '='],
          history := [{ expr := ['2', '+', '2'], result := ['4'] }],
          current := ['2', '+'], previous := ['2', '+', '2', ' ', '='], timers := 0 }).timers
        = 0 + 1 :=
  evaluateExpression_invalid sampleEngine
    { expression := ['2', '+'], previousExpression := ['2', '+', '2', ' ', '='],
      history := [{ expr := ['2', '+', '2'], result := ['4'] }],
      current := ['2', '+'], previous := ['2', '+', '2', ' ', '='], timers := 0 }
    (by decide) (Or.inr ⟨['2', '+'], by decide, by decide⟩)

/-! ### Trailing numeric token -/

/-- The regular expression `\d+(\.\d+)?` decides the number literals. -/
theorem isNumber_iff (x : Str) : isNumber x = true ↔ IsNumberLiteral x := by
  constructor
  · intro h
    simp only [isNumber, Bool.and_eq_true, Bool.not_eq_true', List.isEmpty_eq_false] at h
    obtain ⟨h1, h2⟩ := h
    have hsplit := List.takeWhile_append_dropWhile isDigit x
    have hd1 : ∀ c ∈ x.takeWhile isDigit, isDigit c = true :=
      fun c hc => List.mem_takeWhile_imp hc
    refine ⟨x.takeWhile isDigit, h1, hd1, ?_⟩
    split at h2
    · rename_i hnil
      left
      rw [hnil, List.append_nil] at hsplit
      exact hsplit.symm
    · rename_i r2 hr2
      right
      simp only [Bool.and_eq_true, Bool.not_eq_true', List.isEmpty_eq_false] at h2
      refine ⟨r2, h2.1, fun c hc => List.all_eq_true.mp h2.2 c hc, ?_⟩
      rw [← hr2, hsplit]
    · simp at h2
  · rintro ⟨d1, hne, hd1, hn | ⟨d2, hne2, hd2, hn⟩⟩
    · have ht : x.takeWhile isDigit = x := by
        rw [hn]; exact List.takeWhile_eq_self_iff.mpr hd1
      have hdr : x.dropWhile isDigit = [] := by
        rw [hn]; exact List.dropWhile_eq_nil_iff.mpr hd1
      simp only [isNumber, ht, hdr]
      simp [hn, hne]
    · simp only [isNumber, hn]
      rw [takeWhile_append_stop isDigit '.' d2 (by decide) d1 hd1,
        dropWhile_append_stop isDigit '.' d2 (by decide) d1 hd1]
      simp only [Bool.and_eq_true, Bool.not_eq_true', List.isEmpty_eq_false]
      exact ⟨hne, hne2, List.all_eq_true.mpr hd2⟩

/-- A match of `-?\d+(\.\d+)?` is a number literal, or `-` and a number literal. -/
theorem isSignedNumber_iff (x : Str) :
    isSignedNumber x = true ↔ IsNumberLiteral x ∨ ∃ n, x = '-' :: n ∧ IsNumberLiteral n := by
  unfold isSignedNumber
  split
  · rename_i r
    rw [isNumber_iff]
    constructor
    · intro h; exact Or.inr ⟨r, rfl, h⟩
    · rintro (h | ⟨n, hn, h⟩)
      · obtain ⟨d, rest, hd, hdig⟩ := h.head
        simp only [List.cons.injEq] at hd
        rw [← hd.1] at hdig
        exact absurd hdig (by decide)
      · simp only [List.cons.injEq, true_and] at hn
        rw [hn]; exact h
  · rename_i hx
    rw [isNumber_iff]
    constructor
    · intro h; exact Or.inl h
    · rintro (h | ⟨n, hn, _⟩)
      · exact h
      · exact absurd hn (hx n)

/-- The match found by `x.match(/(R)$/)` when `m` matches and no longer suffix does. -/
theorem matchAtEnd_of_longest (p : Str → Bool) (m : Str) (hm : p m = true) :
    ∀ before : Str, (∀ u : Str, u ≠ [] → u <:+ before → p (u ++ m) = false) →
      matchAtEnd p (before ++ m) = some (before, m) := by
  intro before
  induction before with
  | nil =>
    intro _
    cases m with
    | nil => simp [matchAtEnd, hm]
    | cons c cs => simp [matchAtEnd, hm]
  | cons b bs ih =>
    intro h
    have h1 : p (b :: (bs ++ m)) = false := h (b :: bs) (by simp) (List.suffix_refl _)
    have h2 := ih (fun u hu hs => h u hu (hs.trans (List.suffix_cons b bs)))
    rw [List.cons_append]
    simp only [matchAtEnd]
    rw [h1, h2]
    simp

/-- No character can be put before a match of `-?\d+(\.\d+)?` that starts with `-`. -/
theorem isSignedNumber_append_minus (u n : Str) (hu : u ≠ []) :
    isSignedNumber (u ++ '-' :: n) = false := by
  rw [← Bool.not_eq_true, isSignedNumber_iff]
  have hminus : ¬ (isDigit '-' = true ∨ '-' = '.') := by decide
  rintro (h | ⟨k, hk, h⟩)
  · exact hminus (h.chars '-' (List.mem_append_right _ (List.mem_cons_self _ _)))
  · cases u with
    | nil => exact hu rfl
    | cons a u =>
      simp only [List.cons_append, List.cons.injEq] at hk
      exact hminus (h.chars '-' (by rw [← hk.2]; exact List.mem_append_right _ (List.mem_cons_self _ _)))

/-- No string that ends outside a number can be put before a match of `-?\d+(\.\d+)?`. -/
theorem isSignedNumber_append_outside (before u n : Str) (hbefore : EndsOutsideNumber before)
    (hu : u ≠ []) (hsuf : u <:+ before) (hn : n ≠ []) : isSignedNumber (u ++ n) = false := by
  obtain ⟨c, hc⟩ : ∃ c, u.getLast? = some c := by
    cases h : u.getLast? with
    | none => exact absurd (List.getLast?_eq_none_iff.mp h) hu
    | some c => exact ⟨c, rfl⟩
  obtain ⟨ys, hys⟩ := List.getLast?_eq_some_iff.mp hc
  have hlast : before.getLast? = some c := by
    obtain ⟨t, ht⟩ := hsuf
    rw [← ht, hys, ← List.append_assoc]
    exact List.getLast?_concat _
  obtain ⟨h1, h2, h3⟩ := hbefore c hlast
  rw [← Bool.not_eq_true, isSignedNumber_iff]
  have hmem : c ∈ u ++ n := List.mem_append_left _ (by rw [hys]; simp)
  rintro (h | ⟨k, hk, h⟩)
  · rcases h.chars c hmem with h4 | h4
    · rw [h1] at h4; cases h4
    · exact h2 h4
  · -- `c` is not the first character, as `n` comes after it
    have hmem2 : c ∈ k := by
      cases ys with
      | nil =>
        rw [hys] at hk
        cases n with
        | nil => exact absurd rfl hn
        | cons a n =>
          simp only [List.nil_append, List.singleton_append, List.cons.injEq] at hk
          exact absurd hk.1 h3
      | cons y ys =>
        rw [hys] at hk
        simp only [List.cons_append, List.cons.injEq] at hk
        rw [← hk.2]
        simp
    rcases h.chars c hmem2 with h4 | h4
    · rw [h1] at h4; cases h4
    · exact h2 h4

theorem IsShortInteger.isNumberLiteral {n : Str} (h : IsShortInteger n) : IsNumberLiteral n :=
  ⟨n, h.1, h.2.1, Or.inl rfl⟩

theorem toggleNumber_unsigned {n : Str} (h : IsShortInteger n) :
    toggleNumber n = some ('-' :: n) := by
  obtain ⟨hne, hdig, hhead, hlen⟩ := h
  cases n with
  | nil => exact absurd rfl hne
  | cons d rest =>
    have hd : isDigit d = true := hdig d (List.mem_cons_self d rest)
    have hd1 : d ≠ '-' := by rintro rfl; exact absurd hd (by decide)
    have hd0 : d ≠ '0' := by
      intro h0; exact hhead (by rw [h0]; rfl)
    have hall : (d :: rest).all isDigit = true := List.all_eq_true.mpr hdig
    simp only [toggleNumber, List.head?_cons, Option.some.injEq, hd1, decide_False,
      Bool.false_eq_true, if_false, List.isEmpty_cons, hall, Bool.not_true, Bool.or_self,
      List.dropWhile, hd0, hlen, if_true]

theorem toggleNumber_signed {n : Str} (h : IsShortInteger n) :
    toggleNumber ('-' :: n) = some n := by
  obtain ⟨hne, hdig, hhead, hlen⟩ := h
  cases n with
  | nil => exact absurd rfl hne
  | cons d rest =>
    have hd0 : d ≠ '0' := by
      intro h0; exact hhead (by rw [h0]; rfl)
    have hall : (d :: rest).all isDigit = true := List.all_eq_true.mpr hdig
    simp only [toggleNumber, List.head?_cons, decide_True, if_true, List.tail_cons,
      List.isEmpty_cons, hall, Bool.not_true, Bool.or_self, Bool.false_eq_true, if_false,
      List.dropWhile, hd0, decide_False, hlen]

/-- A match of `-?\d+(\.\d+)?` ends in a digit. -/
theorem isSignedNumber_getLast? {m : Str} (h : isSignedNumber m = true) :
    ∃ d, m.getLast? = some d ∧ isDigit d = true := by
  rcases (isSignedNumber_iff m).mp h with h1 | ⟨n, hn, h1⟩
  · exact isNumber_getLast? ((isNumber_iff m).mpr h1)
  · obtain ⟨d, hd1, hd2⟩ := isNumber_getLast? ((isNumber_iff n).mpr h1)
    obtain ⟨ys, hys⟩ := List.getLast?_eq_some_iff.mp hd1
    exact ⟨d, List.getLast?_eq_some_iff.mpr ⟨'-' :: ys, by rw [hn, hys]; rfl⟩, hd2⟩

theorem isSignedNumber_shortInteger {n : Str} (h : IsShortInteger n) :
    isSignedNumber n = true ∧ isSignedNumber ('-' :: n) = true :=
  ⟨(isSignedNumber_iff n).mpr (Or.inl h.isNumberLiteral),
    (isSignedNumber_iff _).mpr (Or.inr ⟨n, rfl, h.isNumberLiteral⟩)⟩

/-- The function `applyPlusMinus` where the regular expression matches and the negation of
the match is in the model. -/
theorem applyPlusMinus_of_match (s : State) (before m toggled : Str)
    (hmatch : matchAtEnd isSignedNumber s.expression = some (before, m))
    (htoggle : toggleNumber m = some toggled) :
    applyPlusMinus s = some (updateDisplay { s with expression := before ++ toggled }) := by
  simp only [applyPlusMinus, hmatch, htoggle]

/-- The match of `applyPlusMinus` on a short integer `n` after a part that ends outside a
number is `n`. -/
theorem matchAtEnd_shortInteger (before n : Str) (hn : IsShortInteger n)
    (hbefore : EndsOutsideNumber before) :
    matchAtEnd isSignedNumber (before ++ n) = some (before, n) :=
  matchAtEnd_of_longest isSignedNumber n (isSignedNumber_shortInteger hn).1 before
    (fun u hu hs => isSignedNumber_append_outside before u n hbefore hu hs hn.1)

/-- The match of `applyPlusMinus` on `-` and a number literal `n`, after any part, is `-n`. -/
theorem matchAtEnd_minus (before n : Str) (hn : isSignedNumber ('-' :: n) = true) :
    matchAtEnd isSignedNumber (before ++ '-' :: n) = some (before, '-' :: n) :=
  matchAtEnd_of_longest isSignedNumber ('-' :: n) hn before
    (fun u hu _ => isSignedNumber_append_minus u n hu)

/-- C13: `applyPlusMinus` changes nothing when the Expression is empty or does not end in a
digit; on an Expression `before ++ n`, with `n` a non-zero integer literal without leading
zeros of at most 15 digits and `before` empty or ending in a character other than a digit,
`.` and `-`, it returns the Expression `before ++ "-" ++ n`. -/
theorem applyPlusMinus_negates (s : State) :
    ((s.expression = [] ∨ ∃ c, s.expression.getLast? = some c ∧ isDigit c = false) →
        applyPlusMinus s = some s) ∧
      (∀ before n : Str, s.expression = before ++ n → IsShortInteger n →
        EndsOutsideNumber before →
        ∃ s1, applyPlusMinus s = some s1 ∧ s1.expression = before ++ '-' :: n) := by
  constructor
  · intro h
    cases hm : matchAtEnd isSignedNumber s.expression with
    | none => simp only [applyPlusMinus, hm]
    | some r =>
      exfalso
      obtain ⟨before, m⟩ := r
      obtain ⟨he, hp⟩ := matchAtEnd_eq_some isSignedNumber _ _ _ hm
      obtain ⟨d, hd1, hd2⟩ := isSignedNumber_getLast? hp
      have hlast : s.expression.getLast? = some d := by
        rw [he, List.getLast?_append, hd1]; rfl
      rcases h with h | ⟨c, hc1, hc2⟩
      · rw [h] at hlast; simp at hlast
      · rw [hc1] at hlast
        simp only [Option.some.injEq] at hlast
        rw [hlast, hd2] at hc2
        cases hc2
  · intro before n he hn hbefore
    have hmatch : matchAtEnd isSignedNumber s.expression = some (before, n) := by
      rw [he]; exact matchAtEnd_shortInteger before n hn hbefore
    exact ⟨_, applyPlusMinus_of_match s before n _ hmatch (toggleNumber_unsigned hn), rfl⟩

/-- C13, at the Expression `12+5`: it becomes `12+-5`; and at the Expression `12+`, which
is kept. -/
theorem applyPlusMinus_negates_witness :
    applyPlusMinus { initial with expression := ['1', '2', '+'] }
        = some { initial with expression := ['1', '2', '+'] } ∧
      ∃ s1, applyPlusMinus { initial with expression := ['1', '2', '+', '5'] } = some s1 ∧
        s1.expression = ['1', '2', '+'] ++ '-' :: ['5'] :=
  ⟨(applyPlusMinus_negates { initial with expression := ['1', '2', '+'] }).1
      (Or.inr ⟨'+', by decide, by decide⟩),
    (applyPlusMinus_negates { initial with expression := ['1', '2', '+', '5'] }).2
      ['1', '2', '+'] ['5'] (by decide) (by decide)
      (by intro c hc; simp at hc; subst hc; decide)⟩

/-- C20 fails on the code: the Expression `5-3`, typed with the keys `5`, `-`, `3`, ends in
a digit and its trailing numeric token is `-3`, a minus and the integer literal `3`; the
first call of `applyPlusMinus` takes the subtraction sign for the sign of the number and
gives `53`, and the second gives `-53`, not `5-3`. -/
theorem applyPlusMinus_twice_fuses_operands :
    (runActions sampleEngine [Action.append ['5'], Action.append ['-'], Action.append ['3']]
        initial).map State.expression = some ['5', '-', '3'] ∧
      matchAtEnd isSignedNumber ['5', '-', '3'] = some (['5'], ['-', '3']) ∧
      IsShortInteger ['3'] ∧
      (applyPlusMinus { initial with expression := ['5', '-', '3'] }).map State.expression
        = some ['5', '3'] ∧
      ((applyPlusMinus { initial with expression := ['5', '-', '3'] }).bind
        applyPlusMinus).map State.expression = some ['-', '5', '3'] ∧
      (['-', '5', '3'] : Str) ≠ ['5', '-', '3'] := by
  decide

/-- Where the minus that `applyPlusMinus` finds is a sign, two calls return the original
Expression: the match of `-?\d+(\.\d+)?` at the end is a non-zero integer literal `n`
without leading zeros of at most 15 digits, or it is `-n` for such an `n` and the part before
the minus is empty or ends in a character other than a digit, `.` and `-`. -/
theorem applyPlusMinus_twice (s : State) (before m n : Str)
    (hmatch : matchAtEnd isSignedNumber s.expression = some (before, m))
    (hn : IsShortInteger n)
    (hm : m = n ∨ (m = '-' :: n ∧ EndsOutsideNumber before)) :
    ∃ s1 s2, applyPlusMinus s = some s1 ∧ applyPlusMinus s1 = some s2 ∧
      s2.expression = s.expression := by
  have he : s.expression = before ++ m := (matchAtEnd_eq_some isSignedNumber _ _ _ hmatch).1
  rcases hm with hm | ⟨hm, hbefore⟩
  · subst hm
    have h1 := applyPlusMinus_of_match s before m _ hmatch (toggleNumber_unsigned hn)
    have hmatch2 : matchAtEnd isSignedNumber
        (updateDisplay { s with expression := before ++ '-' :: m }).expression
        = some (before, '-' :: m) :=
      matchAtEnd_minus before m (isSignedNumber_shortInteger hn).2
    have h2 := applyPlusMinus_of_match _ before ('-' :: m) _ hmatch2 (toggleNumber_signed hn)
    exact ⟨_, _, h1, h2, he.symm⟩
  · subst hm
    have h1 := applyPlusMinus_of_match s before ('-' :: n) _ hmatch (toggleNumber_signed hn)
    have hmatch2 : matchAtEnd isSignedNumber
        (updateDisplay { s with expression := before ++ n }).expression = some (before, n) :=
      matchAtEnd_shortInteger before n hn hbefore
    have h2 := applyPlusMinus_of_match _ before n _ hmatch2 (toggleNumber_unsigned hn)
    exact ⟨_, _, h1, h2, he.symm⟩

/-- Two calls of `applyPlusMinus` at the Expressions `12+5` and `2*-5`. -/
theorem applyPlusMinus_twice_witness :
    (∃ s1 s2, applyPlusMinus { initial with expression := ['1', '2', '+', '5'] } = some s1 ∧
        applyPlusMinus s1 = some s2 ∧ s2.expression = ['1', '2', '+', '5']) ∧
      ∃ s1 s2, applyPlusMinus { initial with expression := ['2', '*', '-', '5'] } = some s1 ∧
        applyPlusMinus s1 = some s2 ∧ s2.expression = ['2', '*', '-', '5'] :=
  ⟨applyPlusMinus_twice { initial with expression := ['1', '2', '+', '5'] } ['1', '2', '+']
      ['5'] ['5'] (by decide) (by decide) (Or.inl rfl),
    applyPlusMinus_twice { initial with expression := ['2', '*', '-', '5'] } ['2', '*']
      ['-', '5'] ['5'] (by decide) (by decide) (Or.inr ⟨rfl, by intro c hc; simp at hc; subst hc; decide⟩)⟩

/-! ### Percent and decimal point -/

/-- The call `x.match(/(R)$/)` finds a match whenever a suffix matches, and the match it
finds contains that suffix. -/
theorem matchAtEnd_of_suffix (p : Str → Bool) (m : Str) (hm : p m = true) :
    ∀ before : Str, ∃ b found, matchAtEnd p (before ++ m) = some (b, found) ∧ m <:+ found := by
  intro before
  induction before with
  | nil =>
    refine ⟨[], m, ?_, List.suffix_refl m⟩
    cases m with
    | nil => simp [matchAtEnd, hm]
    | cons c cs => simp [matchAtEnd, hm]
  | cons b bs ih =>
    obtain ⟨b1, found, h1, h2⟩ := ih
    by_cases hp : p (b :: (bs ++ m)) = true
    · refine ⟨[], b :: (bs ++ m), ?_, ?_⟩
      · rw [List.cons_append]
        simp only [matchAtEnd, hp, if_true]
      · exact ⟨b :: bs, rfl⟩
    · refine ⟨b :: b1, found, ?_, h2⟩
      rw [List.cons_append]
      simp [matchAtEnd, hp, h1]

/-- The regular expression of `applyPercent` matches exactly when the last character is a
digit. -/
theorem matchAtEnd_isNumber_iff (e : Str) :
    (∃ r, matchAtEnd isNumber e = some r) ↔ ∃ d, e.getLast? = some d ∧ isDigit d = true := by
  constructor
  · rintro ⟨⟨before, m⟩, h⟩
    obtain ⟨he, hm⟩ := matchAtEnd_eq_some isNumber _ _ _ h
    obtain ⟨d, hd1, hd2⟩ := isNumber_getLast? hm
    exact ⟨d, by rw [he, List.getLast?_append, hd1]; rfl, hd2⟩
  · rintro ⟨d, hd1, hd2⟩
    obtain ⟨ys, hys⟩ := List.getLast?_eq_some_iff.mp hd1
    have hp : isNumber [d] = true := (isNumber_iff [d]).mpr
      ⟨[d], by simp, by simpa using hd2, Or.inl rfl⟩
    obtain ⟨b, found, h, _⟩ := matchAtEnd_of_suffix isNumber [d] hp ys
    exact ⟨(b, found), by rw [hys]; exact h⟩

/-- C14: the Expression ends with a numeric token exactly when its last character is a
digit; then `applyPercent` appends `%`, and in every other case it changes nothing; the
PreviousExpression and the ledger are never changed. -/
theorem applyPercent_appends (s : State) :
    ((∃ before n : Str, s.expression = before ++ n ∧ IsNumberLiteral n) ↔
        ∃ d, s.expression.getLast? = some d ∧ isDigit d = true) ∧
      ((∃ d, s.expression.getLast? = some d ∧ isDigit d = true) →
        (applyPercent s).expression = s.expression ++ ['%']) ∧
      ((¬ ∃ d, s.expression.getLast? = some d ∧ isDigit d = true) → applyPercent s = s) ∧
      (applyPercent s).previousExpression = s.previousExpression ∧
      (applyPercent s).history = s.history := by
  refine ⟨?_, ?_, ?_, ?_, history_applyPercent s⟩
  · constructor
    · rintro ⟨before, n, he, hn⟩
      obtain ⟨d, hd1, hd2⟩ := isNumber_getLast? ((isNumber_iff n).mpr hn)
      exact ⟨d, by rw [he, List.getLast?_append, hd1]; rfl, hd2⟩
    · rintro ⟨d, hd1, hd2⟩
      obtain ⟨ys, hys⟩ := List.getLast?_eq_some_iff.mp hd1
      exact ⟨ys, [d], hys, [d], by simp, by simpa using hd2, Or.inl rfl⟩
  · intro h
    obtain ⟨r, hr⟩ := (matchAtEnd_isNumber_iff s.expression).mpr h
    simp only [applyPercent, hr, updateDisplay]
  · intro h
    cases hm : matchAtEnd isNumber s.expression with
    | none => simp only [applyPercent, hm]
    | some r => exact absurd ((matchAtEnd_isNumber_iff s.expression).mp ⟨r, hm⟩) h
  · unfold applyPercent
    split <;> rfl

theorem isDecimalEntry_pointed (d1 d2 : Str) (hne : d1 ≠ [])
    (hd1 : ∀ c ∈ d1, isDigit c = true) (hd2 : ∀ c ∈ d2, isDigit c = true) :
    isDecimalEntry (d1 ++ '.' :: d2) = true := by
  simp only [isDecimalEntry]
  rw [takeWhile_append_stop isDigit '.' d2 (by decide) d1 hd1,
    dropWhile_append_stop isDigit '.' d2 (by decide) d1 hd1]
  simp only [Bool.and_eq_true, Bool.not_eq_true', List.isEmpty_eq_false]
  exact ⟨hne, List.all_eq_true.mpr hd2⟩

/-- The test of the decimal-point listener, `match && match[0].includes('.')`, decides
whether the Expression ends with digits, a `.` and digits. -/
theorem hasPoint_iff (e : Str) :
    (match matchAtEnd isDecimalEntry e with
      | some (_, m) => m.contains '.'
      | none => false) = true ↔ EndsWithPointedNumber e := by
  constructor
  · intro h
    split at h
    · rename_i before m hmatch
      obtain ⟨he, hm⟩ := matchAtEnd_eq_some isDecimalEntry _ _ _ hmatch
      simp only [isDecimalEntry, Bool.and_eq_true, Bool.not_eq_true',
        List.isEmpty_eq_false] at hm
      obtain ⟨h1, h2⟩ := hm
      have hsplit := List.takeWhile_append_dropWhile isDigit m
      have hd1 : ∀ c ∈ m.takeWhile isDigit, isDigit c = true :=
        fun c hc => List.mem_takeWhile_imp hc
      split at h2
      · rename_i hnil
        exfalso
        rw [hnil, List.append_nil] at hsplit
        have hmem : '.' ∈ m := by simpa using h
        rw [← hsplit] at hmem
        exact absurd (hd1 '.' hmem) (by decide)
      · rename_i r2 hr2
        refine ⟨before, m.takeWhile isDigit, r2, ?_, h1, hd1,
          fun c hc => List.all_eq_true.mp h2 c hc⟩
        rw [← hr2, hsplit, he]
      · simp at h2
    · simp at h
  · rintro ⟨before, d1, d2, he, hne, hd1, hd2⟩
    obtain ⟨b, found, hmatch, hsuf⟩ :=
      matchAtEnd_of_suffix isDecimalEntry _ (isDecimalEntry_pointed d1 d2 hne hd1 hd2) before
    rw [he, hmatch]
    have hmem : '.' ∈ found := by
      obtain ⟨t, ht⟩ := hsuf
      rw [← ht]
      simp
    simpa using hmem

/-- C15: the decimal-point keystroke leaves an Expression that ends with digits, a `.` and
digits as it is; otherwise it appends `0.` when the Expression is empty or its last
character is neither a digit nor `)`, and appends `.` when the last character is a digit or
`)`. -/
theorem clickValue_point (s : State) :
    (EndsWithPointedNumber s.expression → clickValue ['.'] s = s) ∧
      (¬ EndsWithPointedNumber s.expression →
        (s.expression = [] ∨
          ∃ c, s.expression.getLast? = some c ∧ isDigit c = false ∧ c ≠ ')') →
        (clickValue ['.'] s).expression = s.expression ++ ['0', '.']) ∧
      (¬ EndsWithPointedNumber s.expression →
        (∃ c, s.expression.getLast? = some c ∧ (isDigit c = true ∨ c = ')')) →
        (clickValue ['.'] s).expression = s.expression ++ ['.']) := by
  have hpoint : (['.'] : Str) ≠ [] := by decide
  refine ⟨?_, ?_, ?_⟩
  · intro h
    have h1 := (hasPoint_iff s.expression).mpr h
    simp only [clickValue, hpoint, if_false, if_true]
    exact if_pos h1
  · intro h hlast
    have h1 : ¬ ((match matchAtEnd isDecimalEntry s.expression with
        | some (_, m) => m.contains '.'
        | none => false) = true) := fun hp => h ((hasPoint_iff s.expression).mp hp)
    have h2 : sliceLast s.expression = [] ∨
        testNotDigitOrClose (sliceLast s.expression) = true := by
      rcases hlast with hnil | ⟨c, hc, hdig, hclose⟩
      · left; rw [hnil]; rfl
      · right
        rw [sliceLast_of_getLast? hc]
        simp [testNotDigitOrClose, hdig, hclose]
    simp only [clickValue, hpoint, if_false, if_true]
    refine (congrArg State.expression (if_neg h1)).trans ?_
    rw [if_pos h2]
    rfl
  · rintro h ⟨c, hc, hcd⟩
    have h1 : ¬ ((match matchAtEnd isDecimalEntry s.expression with
        | some (_, m) => m.contains '.'
        | none => false) = true) := fun hp => h ((hasPoint_iff s.expression).mp hp)
    have h2 : ¬ (sliceLast s.expression = [] ∨
        testNotDigitOrClose (sliceLast s.expression) = true) := by
      rw [sliceLast_of_getLast? hc]
      rcases hcd with hd | hd
      · simp [testNotDigitOrClose, hd]
      · simp [testNotDigitOrClose, hd]
    simp only [clickValue, hpoint, if_false, if_true]
    refine (congrArg State.expression (if_neg h1)).trans ?_
    rw [if_neg h2, pushToExpression_expression s ['.'] c hc]
    have h3 : ¬ (isOperator c = true ∧ testOperator ['.'] = true) := by
      rintro ⟨_, h4⟩
      exact absurd h4 (by decide)
    rw [if_neg h3]

/-- C16: the branch `str === '-' && last === '('` is never taken: `pushToExpression` and
`pushToExpression` without that branch return the same state on every state and every
token; and on an Expression that ends in `(` the token `-` is appended. -/
theorem pushToExpression_branch_dead :
    (∀ (str : Str) (s : State),
      pushToExpression str s = pushToExpressionWithoutBranch str s) ∧
      (∀ s : State, s.expression.getLast? = some '(' →
        (pushToExpression ['-'] s).expression = s.expression ++ ['-']) := by
  constructor
  · intro str s
    simp only [pushToExpression, pushToExpressionWithoutBranch]
    by_cases h1 : testLeadingOperator str = true ∧ s.expression = []
    · rw [if_pos h1, if_pos h1]
    · rw [if_neg h1, if_neg h1]
      by_cases h2 : testOperator (sliceLast s.expression) = true ∧ testOperator str = true
      · rw [if_pos h2, if_pos h2]
        have h3 : ¬ (str = ['-'] ∧ sliceLast s.expression = ['(']) := by
          rintro ⟨_, h4⟩
          rw [h4] at h2
          exact absurd h2.1 (by decide)
        rw [if_neg h3]
      · rw [if_neg h2, if_neg h2]
  · intro s h
    rw [pushToExpression_expression s ['-'] '(' h]
    have h3 : ¬ (isOperator '(' = true ∧ testOperator ['-'] = true) := by decide
    rw [if_neg h3]

/-! ### Builder invariants -/

theorem noAdjacentOperators_step_builder (run : Str → Option JsValue) (a : Action)
    (s s1 : State) (ha : isBuilderAction a = true) (hs : NoAdjacentOperators s.expression)
    (h : step run a s = some s1) : NoAdjacentOperators s1.expression := by
  cases a with
  | append token =>
    simp only [step, Option.some.injEq] at h
    subst h
    have htok : isToken token = true := ha
    match token, htok with
    | [t], _ => exact noAdjacentOperators_pushToExpression t s hs
  | decimalPoint =>
    simp only [step, Option.some.injEq] at h
    subst h
    exact noAdjacentOperators_clickValue_point s hs
  | backspace =>
    simp only [step, Option.some.injEq] at h
    subst h
    exact hs.dropLast
  | clearEntry =>
    simp only [step, Option.some.injEq] at h
    subst h
    exact List.chain'_nil
  | clearAll =>
    simp only [step, Option.some.injEq] at h
    subst h
    exact List.chain'_nil
  | percent =>
    simp only [step, Option.some.injEq] at h
    subst h
    exact noAdjacentOperators_applyPercent s hs
  | plusMinus => exact absurd ha (by decide)
  | evaluate => exact absurd ha (by decide)
  | select i => exact absurd ha (by simp [isBuilderAction])

/-- C17: in every state reached from the initial state by appends of keypad tokens,
decimal-point keystrokes, `applyPercent`, backspace, `clearEntry` and `clearAll`, the
Expression has no two consecutive characters of `+ - * / %`. -/
theorem operators_separated_builder (run : Str → Option JsValue) (acts : List Action)
    (hacts : ∀ a ∈ acts, isBuilderAction a = true) (s : State)
    (h : runActions run acts initial = some s) : NoAdjacentOperators s.expression :=
  runActions_invariant run (fun s => NoAdjacentOperators s.expression)
    (fun a => isBuilderAction a = true)
    (fun a s s1 ha hs hstep => noAdjacentOperators_step_builder run a s s1 ha hs hstep)
    acts initial s hacts List.chain'_nil h

/-- C17, on the run `5`, percent, `+`, `-`, decimal point, backspace, `*`: the Expression
is `5-0*`. -/
theorem operators_separated_builder_witness :
    NoAdjacentOperators ['5', '-', '0', '*'] :=
  operators_separated_builder sampleEngine
    [Action.append ['5'], Action.percent, Action.append ['+'], Action.append ['-'],
      Action.decimalPoint, Action.backspace, Action.append ['*']]
    (by decide)
    { expression := ['5', '-', '0', '*'], previousExpression := [], history := [],
      current := ['5', '-', '0', '*'], previous := [], timers := 0 }
    (by decide)

/-- C19 fails on the code: from the initial state the tokens `-` and `+` give the
Expression `+`: the first `-` is accepted on the empty Expression and the `+` then replaces
it, the guard for a leading `+ * / %` being on the empty Expression only. -/
theorem leading_operator_reachable :
    (∀ a ∈ [Action.append ['-'], Action.append ['+']], isAppendOrBackspace a = true) ∧
      (runActions sampleEngine [Action.append ['-'], Action.append ['+']] initial).map
        State.expression = some ['+'] ∧
      (['+'] : Str).head? = some '+' := by
  decide

/-! ### Sanitizing twice -/

theorem noDigitPercent_of_not_mem : ∀ x : Str, '%' ∉ x → NoDigitPercent x := by
  intro x
  induction x with
  | nil => intro _; exact List.chain'_nil
  | cons a rest ih =>
    intro h
    have hrest : '%' ∉ rest := fun hm => h (List.mem_cons_of_mem a hm)
    refine List.Chain'.cons' (ih hrest) ?_
    intro y hy hay
    have hmem : y ∈ rest := List.mem_of_mem_head? hy
    exact hrest (hay.2 ▸ hmem)

theorem head?_expandPercent (c : Char) (cs : Str) :
    (expandPercent (c :: cs)).head? = some '(' ∨ (expandPercent (c :: cs)).head? = some c := by
  cases hm : matchPercent (c :: cs) with
  | none => right; rw [expandPercent_of_no_match hm]; rfl
  | some r =>
    obtain ⟨num, rest⟩ := r
    left; rw [expandPercent_of_match hm]; rfl

theorem noDigitPercent_expandPercent_aux :
    ∀ (k : Nat) (x : Str), x.length ≤ k → NoDigitPercent (expandPercent x) := by
  intro k
  induction k with
  | zero =>
    intro x hx
    have hnil : x = [] := List.length_eq_zero.mp (Nat.le_zero.mp hx)
    subst hnil
    exact List.chain'_nil
  | succ k ih =>
    intro x hx
    cases x with
    | nil => exact List.chain'_nil
    | cons c cs =>
      have hcs : cs.length ≤ k := by
        simp only [List.length_cons] at hx; omega
      cases hm : matchPercent (c :: cs) with
      | none =>
        rw [expandPercent_of_no_match hm]
        refine List.Chain'.cons' (ih cs hcs) ?_
        intro y hy hcy
        cases cs with
        | nil => simp [expandPercent, expandPercentFrom] at hy
        | cons c2 cs2 =>
          have hc2 : c2 = '%' := by
            rcases head?_expandPercent c2 cs2 with h1 | h1
            · rw [h1] at hy
              simp only [Option.mem_def, Option.some.injEq] at hy
              rw [← hy] at hcy
              exact absurd hcy.2 (by decide)
            · rw [h1] at hy
              simp only [Option.mem_def, Option.some.injEq] at hy
              rw [hy]; exact hcy.2
          have hlit : IsNumberLiteral [c] :=
            ⟨[c], by simp, by simpa using hcy.1, Or.inl rfl⟩
          have := matchPercent_literal hlit cs2
          rw [hc2] at hm
          simp only [List.singleton_append] at this
          rw [this] at hm
          cases hm
      | some r =>
        obtain ⟨num, rest⟩ := r
        obtain ⟨hx2, hnum⟩ := matchPercent_eq_some hm
        have hrest : rest.length ≤ k := by
          have := congrArg List.length hx2
          simp only [List.length_cons, List.length_append] at this
          omega
        rw [expandPercent_of_match hm]
        have hhead : NoDigitPercent ('(' :: (num ++ ['/', '1', '0', '0', ')'])) := by
          apply noDigitPercent_of_not_mem
          intro hmem
          rcases List.mem_cons.mp hmem with h1 | h1
          · exact absurd h1 (by decide)
          · rcases List.mem_append.mp h1 with h2 | h2
            · exact hnum.percent_not_mem h2
            · exact absurd h2 (by decide)
        have hjoin : NoDigitPercent
            (('(' :: (num ++ ['/', '1', '0', '0', ')'])) ++ expandPercent rest) := by
          refine List.Chain'.append hhead (ih rest hrest) ?_
          intro a ha b _ hab
          have ha2 : a = ')' := by
            have h3 : ('(' :: (num ++ ['/', '1', '0', '0', ')'])).getLast? = some ')' :=
              List.getLast?_eq_some_iff.mpr ⟨'(' :: (num ++ ['/', '1', '0', '0']), by simp⟩
            rw [h3] at ha
            simp only [Option.mem_def, Option.some.injEq] at ha
            exact ha.symm
          rw [ha2] at hab
          exact absurd hab.1 (by decide)
        simpa [List.append_assoc] using hjoin

theorem replaceGlyph_cases (c : Char) :
    replaceGlyph c = c ∨ replaceGlyph c = '*' ∨ replaceGlyph c = '-' ∨ replaceGlyph c = '/' := by
  unfold replaceGlyph
  split_ifs
  · exact Or.inr (Or.inl rfl)
  · exact Or.inr (Or.inr (Or.inl rfl))
  · exact Or.inr (Or.inr (Or.inr rfl))
  · exact Or.inl rfl

theorem noDigitPercent_replaceGlyphs (x : Str) (h : NoDigitPercent x) :
    NoDigitPercent (replaceGlyphs x) := by
  unfold NoDigitPercent replaceGlyphs
  rw [List.chain'_map]
  refine List.Chain'.imp ?_ h
  intro a b hab hrep
  apply hab
  constructor
  · rcases replaceGlyph_cases a with h1 | h1 | h1 | h1
    · rw [← h1]; exact hrep.1
    · rw [h1] at hrep; exact absurd hrep.1 (by decide)
    · rw [h1] at hrep; exact absurd hrep.1 (by decide)
    · rw [h1] at hrep; exact absurd hrep.1 (by decide)
  · rcases replaceGlyph_cases b with h1 | h1 | h1 | h1
    · rw [← h1]; exact hrep.2
    · rw [h1] at hrep; exact absurd hrep.2 (by decide)
    · rw [h1] at hrep; exact absurd hrep.2 (by decide)
    · rw [h1] at hrep; exact absurd hrep.2 (by decide)

/-- Percent expansion changes nothing where no digit is directly followed by `%`. -/
theorem expandPercent_of_noDigitPercent (x : Str) (h : NoDigitPercent x) :
    expandPercent x = x := by
  apply expandPercent_of_no_literal
  rintro ⟨before, n, after, hn, hx⟩
  obtain ⟨d, hd1, hd2⟩ := isNumber_getLast? ((isNumber_iff n).mpr hn)
  obtain ⟨ys, hys⟩ := List.getLast?_eq_some_iff.mp hd1
  have hx2 : x = (before ++ ys) ++ ([d, '%'] ++ after) := by
    rw [hx, hys]; simp
  have hpair : NoDigitPercent [d, '%'] := by
    have h1 : NoDigitPercent ([d, '%'] ++ after) :=
      List.Chain'.suffix (hx2 ▸ h) (List.suffix_append _ _)
    exact List.Chain'.prefix h1 (List.prefix_append _ _)
  have h2 : ¬ (isDigit d = true ∧ '%' = '%') := by
    simpa [NoDigitPercent] using hpair
  exact h2 ⟨hd2, rfl⟩

/-- Glyph replacement changes nothing in a string of permitted characters. -/
theorem replaceGlyphs_of_allowed (x : Str) (h : ∀ c ∈ x, isAllowed c = true) :
    replaceGlyphs x = x := by
  unfold replaceGlyphs
  conv_rhs => rw [← List.map_id x]
  apply List.map_congr_left
  intro c hc
  have hallowed := h c hc
  unfold replaceGlyph
  split_ifs with h1 h2 h3
  · rw [h1] at hallowed; exact absurd hallowed (by decide)
  · rw [h2] at hallowed; exact absurd hallowed (by decide)
  · rw [h3] at hallowed; exact absurd hallowed (by decide)
  · rfl

/-- What a success of the sanitizer says of its result. -/
theorem sanitizeForEval_eq_ok {input n : Str} (h : sanitizeForEval input = .ok n) :
    n = replaceGlyphs (expandPercent input) ∧ testAllowed n = true ∧
      testEmptyParens n = false := by
  simp only [sanitizeForEval] at h
  split_ifs at h with h1 h2
  simp only [Except.ok.injEq] at h
  subst h
  exact ⟨rfl, by simpa using h1, by simpa using h2⟩

/-- C18: where `sanitizeForEval` succeeds, it succeeds on its result and returns it
unchanged. -/
theorem sanitizeForEval_idempotent (input n : Str) (h : sanitizeForEval input = .ok n) :
    sanitizeForEval n = .ok n := by
  obtain ⟨hn, hallowed, hparens⟩ := sanitizeForEval_eq_ok h
  have hno : NoDigitPercent n := by
    rw [hn]
    exact noDigitPercent_replaceGlyphs _
      (noDigitPercent_expandPercent_aux input.length input (Nat.le_refl _))
  have h1 : expandPercent n = n := expandPercent_of_noDigitPercent n hno
  have h2 : replaceGlyphs n = n :=
    replaceGlyphs_of_allowed n ((testAllowed_iff n).mp hallowed).2
  simp only [sanitizeForEval, h1, h2, hallowed, hparens]
  simp

/-- C18, at the input `50%`: the result `(50/100)` sanitizes to itself. -/
theorem sanitizeForEval_idempotent_witness :
    sanitizeForEval ['(', '5', '0', '/', '1', '0', '0', ')']
      = .ok ['(', '5', '0', '/', '1', '0', '0', ')'] :=
  sanitizeForEval_idempotent ['5', '0', '%'] ['(', '5', '0', '/', '1', '0', '0', ')']
    (by decide)

end Calculator
